import Mathlib

/-!
# Verification of the folder synchronizer (`src/synchronizer.py`)

Shallow embedding of the one-file folder synchronizer.  Paths are lists of
characters; Python's `str.replace` (used by the program for all path mapping
between the source and the replica tree) is modelled character by character;
the filesystem that the reconciler mutates is modelled as the list of paths
that currently exist on the replica side; directory trees that `os.walk`
traverses are modelled as a small inductive type of named entries.

All definitions are executable and structurally recursive, so concrete
scenarios evaluate by `decide` / `rfl`.
-/

/-- A filesystem path, as the list of its characters. -/
abbrev FsPath := List Char

/-! ## Python `str.replace`

`s.replace(old, new)` scans `s` left to right and replaces every
non-overlapping occurrence of `old` by `new`; if `old` is empty, `new` is
inserted at every position (including both ends).  `pyReplaceAux` carries
fuel so that the definition is structurally recursive (every step consumes
at least one character of `s`, so `s.length` fuel is always enough). -/

def pyReplaceAux (old new : List Char) : Nat → List Char → List Char
  | _, [] => if old = [] then new else []
  | 0, s => s
  | fuel+1, c :: cs =>
    if old = [] then new ++ c :: pyReplaceAux old new fuel cs
    else if old.isPrefixOf (c :: cs) then
      new ++ pyReplaceAux old new fuel ((c :: cs).drop old.length)
    else c :: pyReplaceAux old new fuel cs

/-- Python `s.replace(old, new)` on character lists. -/
def pyReplace (s old new : List Char) : List Char := pyReplaceAux old new s.length s

/-- The fuel argument of `pyReplaceAux` is irrelevant as long as it is at
least the length of the string being scanned. -/
theorem pyReplaceAux_fuel (old new : List Char) :
    ∀ f₁ : Nat, ∀ s : List Char, ∀ f₂ : Nat, s.length ≤ f₁ → s.length ≤ f₂ →
      pyReplaceAux old new f₁ s = pyReplaceAux old new f₂ s := by
  intro f₁
  induction f₁ with
  | zero =>
    intro s f₂ h1 _
    have hs : s = [] := List.length_eq_zero.mp (Nat.le_zero.mp h1)
    subst hs
    cases f₂ <;> rfl
  | succ f ih =>
    intro s f₂ h1 h2
    cases s with
    | nil => cases f₂ <;> rfl
    | cons c cs =>
      cases f₂ with
      | zero => simp at h2
      | succ g =>
        simp only [List.length_cons, Nat.succ_le_succ_iff] at h1 h2
        by_cases ho : old = []
        · subst ho
          simp only [pyReplaceAux, if_pos rfl]
          rw [ih cs g h1 h2]
          simp
        · simp only [pyReplaceAux, if_neg ho]
          by_cases hp : old.isPrefixOf (c :: cs) = true
          · rw [if_pos hp, if_pos hp]
            have hd : ((c :: cs).drop old.length).length ≤ cs.length := by
              have hol : 1 ≤ old.length := by
                cases old with
                | nil => exact absurd rfl ho
                | cons o os => simp
              simp only [List.length_drop, List.length_cons]
              omega
            rw [ih ((c :: cs).drop old.length) g (le_trans hd h1) (le_trans hd h2)]
          · rw [if_neg hp, if_neg hp]
            rw [ih cs g h1 h2]

/-- If `old` never occurs in `s`, `s.replace(old, new)` returns `s` unchanged. -/
theorem pyReplace_no_occurrence (old new : List Char) :
    ∀ s : List Char, ¬ old <:+: s → pyReplace s old new = s := by
  intro s
  induction s with
  | nil =>
    intro h
    have ho : old ≠ [] := by
      intro he
      exact h ⟨[], [], by simp [he]⟩
    simp [pyReplace, pyReplaceAux, ho]
  | cons c cs ih =>
    intro h
    have ho : old ≠ [] := by
      intro he
      exact h ⟨[], c :: cs, by simp [he]⟩
    have hp : ¬ old.isPrefixOf (c :: cs) := by
      intro hp
      exact h (List.IsPrefix.isInfix (List.isPrefixOf_iff_prefix.mp hp))
    simp only [pyReplace, List.length_cons, pyReplaceAux, ho, if_false, hp]
    have hcs : ¬ old <:+: cs := fun hi => h (List.infix_cons hi)
    exact congrArg (c :: ·) (ih hcs)

/-- Replacing at the head: when `s = old ++ t` with `old` nonempty, the scan
matches `old` at position 0, emits `new` and continues on `t`. -/
theorem pyReplace_head (old new t : List Char) (h : old ≠ []) :
    pyReplace (old ++ t) old new = new ++ pyReplace t old new := by
  cases old with
  | nil => exact absurd rfl h
  | cons o os =>
    have hp : (o :: os).isPrefixOf ((o :: os) ++ t) :=
      List.isPrefixOf_iff_prefix.mpr ⟨t, rfl⟩
    have hne : (o :: os) ≠ ([] : List Char) := by simp
    show pyReplaceAux (o :: os) new ((o :: os) ++ t).length ((o :: os) ++ t)
        = new ++ pyReplace t (o :: os) new
    have hlen : ((o :: os) ++ t).length = (os ++ t).length + 1 := by simp
    rw [hlen]
    show (if (o :: os) = [] then new ++ o :: pyReplaceAux (o :: os) new (os ++ t).length (os ++ t)
      else if (o :: os).isPrefixOf (o :: (os ++ t))
        then new ++ pyReplaceAux (o :: os) new (os ++ t).length ((o :: (os ++ t)).drop (o :: os).length)
        else o :: pyReplaceAux (o :: os) new (os ++ t).length (os ++ t))
      = new ++ pyReplace t (o :: os) new
    have hp' : (o :: os).isPrefixOf (o :: (os ++ t)) := hp
    simp only [hne, if_false, hp', if_true]
    have hdrop : (o :: (os ++ t)).drop (o :: os).length = t := by
      have : (o :: (os ++ t)) = (o :: os) ++ t := by simp
      rw [this, List.drop_left]
    rw [hdrop]
    exact congrArg (new ++ ·) (pyReplaceAux_fuel (o :: os) new (os ++ t).length t t.length
      (by simp) (le_refl _))

/-- Prefix substitution: when `old` is nonempty, occurs at the head of the
path and nowhere inside the remainder, `replace` swaps exactly the root. -/
theorem pyReplace_swap (old new t : List Char) (h1 : old ≠ []) (h2 : ¬ old <:+: t) :
    pyReplace (old ++ t) old new = new ++ t := by
  rw [pyReplace_head old new t h1, pyReplace_no_occurrence old new t h2]

/-- **C3, counterexample.**  The claim states that mapping a path of the form
`fromRoot ++ suffix` always yields `toRoot ++ suffix`.  The code maps paths
with Python `str.replace`, which replaces *every* occurrence of `fromRoot`,
so a suffix that itself contains the root text is corrupted: mapping
`"/s" ++ "/sx"` from root `"/s"` to `"/r"` yields `"/r/rx"`, not `"/r/sx"`. -/
theorem c3_counterexample :
    pyReplace ("/s".toList ++ "/sx".toList) "/s".toList "/r".toList
      ≠ "/r".toList ++ "/sx".toList := by decide

/-- **C3 (amended).**  For every path of the form `fromRoot ++ suffix` where
`fromRoot` is nonempty and does not occur anywhere inside `suffix`, the
path-mapping operation (`str.replace` of `fromRoot` by `toRoot`, as used at
`synchronizer.py` lines 76, 92 and 121) returns `toRoot ++ suffix`: it
replaces the `fromRoot` prefix and leaves the remainder unchanged.  The
operation is a pure function of its arguments (no side effects). -/
theorem c3_path_map_swaps_root (fromRoot toRoot suffix : List Char)
    (h1 : fromRoot ≠ []) (h2 : ¬ fromRoot <:+: suffix) :
    pyReplace (fromRoot ++ suffix) fromRoot toRoot = toRoot ++ suffix :=
  pyReplace_swap fromRoot toRoot suffix h1 h2

/-- **C3, witness.**  The amended mapping contract at a concrete input. -/
theorem c3_path_map_swaps_root_witness :
    pyReplace ("/s".toList ++ "/d/f".toList) "/s".toList "/r".toList
      = "/r".toList ++ "/d/f".toList :=
  c3_path_map_swaps_root "/s".toList "/r".toList "/d/f".toList (by decide) (by decide)

/-- **C2, counterexample.**  The claim states the round trip holds for *any*
path under `sourceRoot`.  Because the mapping is a replace-all, the path
`"/s/r"` under source root `"/s"` maps to `"/r/r"`, and mapping back from
replica root `"/r"` to `"/s"` replaces both occurrences, giving `"/s/s"`,
not the original `"/s/r"`. -/
theorem c2_counterexample :
    pyReplace (pyReplace ("/s".toList ++ "/r".toList) "/s".toList "/r".toList)
        "/r".toList "/s".toList
      ≠ "/s".toList ++ "/r".toList := by decide

/-- **C2 (amended).**  For a path `P = sourceRoot ++ suffix` under
`sourceRoot`, mapping `P` from `sourceRoot` to `replicaRoot` and back yields
`P` unchanged, provided both roots are nonempty and neither root's text
occurs inside the suffix (which holds in particular whenever no walked file
or folder name contains either root as a substring). -/
theorem c2_roundtrip (sourceRoot replicaRoot suffix : List Char)
    (hs : sourceRoot ≠ []) (hr : replicaRoot ≠ [])
    (h1 : ¬ sourceRoot <:+: suffix) (h2 : ¬ replicaRoot <:+: suffix) :
    pyReplace (pyReplace (sourceRoot ++ suffix) sourceRoot replicaRoot)
        replicaRoot sourceRoot
      = sourceRoot ++ suffix := by
  rw [pyReplace_swap sourceRoot replicaRoot suffix hs h1,
      pyReplace_swap replicaRoot sourceRoot suffix hr h2]

/-- **C2, witness.**  The amended round trip at a concrete input. -/
theorem c2_roundtrip_witness :
    pyReplace (pyReplace ("/s".toList ++ "/d/f".toList) "/s".toList "/r".toList)
        "/r".toList "/s".toList
      = "/s".toList ++ "/d/f".toList :=
  c2_roundtrip "/s".toList "/r".toList "/d/f".toList
    (by decide) (by decide) (by decide) (by decide)

/-! ## Directory trees and `os.walk` -/

/-- One entry of a directory tree: a named subdirectory with its children,
or a named file. -/
inductive Entry where
  | dir (name : List Char) (children : List Entry)
  | file (name : List Char)

/-- `os.path.join(directory, name)` for a simple relative name. -/
def pathJoin (d : FsPath) (n : List Char) : FsPath := d ++ '/' :: n

/-- The immediate subdirectories of a listing, with their names and
children (the children model what `shutil.copytree` reads from the source
tree when it copies the folder). -/
def dirsOf : List Entry → List (List Char × List Entry)
  | [] => []
  | .dir n cs :: es => (n, cs) :: dirsOf es
  | .file _ :: es => dirsOf es

/-- The immediate file names of a listing. -/
def filesOf : List Entry → List (List Char)
  | [] => []
  | .dir _ _ :: es => filesOf es
  | .file n :: es => n :: filesOf es

/-- One `os.walk` triple: `(dirpath, dirnames-with-subtrees, filenames)`. -/
abbrev Triple := FsPath × List (List Char × List Entry) × List (List Char)

mutual
/-- The `os.walk` triples contributed by one entry (top-down). -/
def walkEntry (base : FsPath) : Entry → List Triple
  | .dir n cs => (pathJoin base n, dirsOf cs, filesOf cs) :: walkEntries (pathJoin base n) cs
  | .file _ => []
/-- The `os.walk` triples contributed below a listing, in listing order. -/
def walkEntries (base : FsPath) : List Entry → List Triple
  | [] => []
  | e :: es => walkEntry base e ++ walkEntries base es
end

/-- `os.walk(root)` over an existing tree: the root's own triple first, then
each subdirectory's subtree, top-down.  (The on-disk traversal order of the
names inside a directory is not observable; the model uses listing order.) -/
def osWalk (root : FsPath) (es : List Entry) : List Triple :=
  (root, dirsOf es, filesOf es) :: walkEntries root es

/-- `os.walk` on a root that may be missing or unreadable: with the default
`onerror=None` the error raised by `scandir` is swallowed, and the walk of a
nonexistent or unreadable root yields no triples at all instead of raising. -/
def osWalkChecked (root : FsPath) : Option (List Entry) → List Triple
  | none => []
  | some es => osWalk root es

mutual
/-- All paths below `base` contributed by one entry. -/
def entryPaths (base : FsPath) : Entry → List FsPath
  | .dir n cs => pathJoin base n :: entriesPaths (pathJoin base n) cs
  | .file n => [pathJoin base n]
/-- All paths below `base` contributed by a listing. -/
def entriesPaths (base : FsPath) : List Entry → List FsPath
  | [] => []
  | e :: es => entryPaths base e ++ entriesPaths base es
end

mutual
/-- The folder paths below `base` contributed by one entry. -/
def entryFolders (base : FsPath) : Entry → List FsPath
  | .dir n cs => pathJoin base n :: entriesFolders (pathJoin base n) cs
  | .file _ => []
/-- The folder paths below `base` contributed by a listing. -/
def entriesFolders (base : FsPath) : List Entry → List FsPath
  | [] => []
  | e :: es => entryFolders base e ++ entriesFolders base es
end

mutual
/-- The file paths below `base` contributed by one entry. -/
def entryFiles (base : FsPath) : Entry → List FsPath
  | .dir n cs => entriesFiles (pathJoin base n) cs
  | .file n => [pathJoin base n]
/-- The file paths below `base` contributed by a listing. -/
def entriesFiles (base : FsPath) : List Entry → List FsPath
  | [] => []
  | e :: es => entryFiles base e ++ entriesFiles base es
end

/-! ## The synchronizer's state and operations -/

/-- The two directory attributes of the `Synchronizer` object. -/
structure Cfg where
  source_directory_path : FsPath
  replica_directory_path : FsPath

/-- A folder-state dictionary `{'folders': set(), 'files': set()}`.  Python
sets are modelled by their element lists; `set.add` is `List.insert` and all
statements about them are membership statements. -/
structure FolderState where
  folders : List FsPath
  files : List FsPath

/-- The fresh dictionary `{'folders': set(), 'files': set()}`. -/
def emptyState : FolderState := ⟨[], []⟩

/-- `get_absolute_path` (synchronizer.py:64-77): joins the directory path and
the object name, then maps the result from the replica namespace to the
source namespace with `str.replace`. -/
def get_absolute_path (cfg : Cfg) (directory_path : FsPath) (object_name : List Char) : FsPath :=
  pyReplace (pathJoin directory_path object_name)
    cfg.replica_directory_path cfg.source_directory_path

/-- The `object_type` argument of `make_copy`.  The folder case carries the
subtree of the source folder being copied: it is the data `shutil.copytree`
reads from the source tree and recreates under the destination path. -/
inductive CopyKind where
  | folders (children : List Entry)
  | files

/-- The mutable state of the copy phase of a cycle: the two folder-state
dictionaries, the replica disk (the set of paths existing on the replica
side), the log of copies performed this cycle, and a count of the mutating
operations performed on the stored replica snapshot. -/
structure SyncSt where
  source_folder_state : FolderState
  replica_folder_state : FolderState
  disk : List FsPath
  copiedFolders : List FsPath
  copiedFiles : List FsPath
  replicaMutations : Nat

/-- `make_copy` (synchronizer.py:79-110).  Computes the replica-side path
with `str.replace`; if that path does not exist on the replica disk, adds
the source-namespace path to the replica folder state (a mutation of the
stored snapshot, line 96), copies the folder tree or file onto the replica
disk and logs the copy.  In all cases the source-namespace path is then
added to the source folder state (line 110). -/
def make_copy (cfg : Cfg) (directory_path : FsPath) (object_name : List Char)
    (object_type : CopyKind) (st : SyncSt) : SyncSt :=
  let path_abs := pathJoin directory_path object_name
  let replica_absolute_path :=
    pyReplace path_abs cfg.source_directory_path cfg.replica_directory_path
  let st' :=
    if replica_absolute_path ∈ st.disk then st
    else
      match object_type with
      | .folders children =>
          { st with
            replica_folder_state :=
              { st.replica_folder_state with
                folders := st.replica_folder_state.folders.insert path_abs },
            replicaMutations := st.replicaMutations + 1,
            disk := replica_absolute_path ::
              entriesPaths replica_absolute_path children ++ st.disk,
            copiedFolders := path_abs :: st.copiedFolders }
      | .files =>
          { st with
            replica_folder_state :=
              { st.replica_folder_state with
                files := st.replica_folder_state.files.insert path_abs },
            replicaMutations := st.replicaMutations + 1,
            disk := replica_absolute_path :: st.disk,
            copiedFiles := path_abs :: st.copiedFiles }
  match object_type with
  | .folders _ =>
      { st' with
        source_folder_state :=
          { st'.source_folder_state with
            folders := st'.source_folder_state.folders.insert path_abs } }
  | .files =>
      { st' with
        source_folder_state :=
          { st'.source_folder_state with
            files := st'.source_folder_state.files.insert path_abs } }

/-- The tail of the `zip_longest(folders, files)` loop once the folder names
are exhausted: each remaining iteration copies only a file. -/
def copyFilesLoop (cfg : Cfg) (dp : FsPath) : List (List Char) → SyncSt → SyncSt
  | [], st => st
  | f :: fs, st => copyFilesLoop cfg dp fs (make_copy cfg dp f .files st)

/-- The `zip_longest(folders_in_directory, files_in_directory)` loop of
`check_folder_state` in copy mode (lines 153-164): in each iteration the
folder (if any) is copied first, then the file (if any). -/
def copyPairsLoop (cfg : Cfg) (dp : FsPath) :
    List (List Char × List Entry) → List (List Char) → SyncSt → SyncSt
  | [], fs, st => copyFilesLoop cfg dp fs st
  | d :: ds, fs, st =>
    match fs with
    | [] => copyPairsLoop cfg dp ds [] (make_copy cfg dp d.1 (.folders d.2) st)
    | f :: fs' =>
        copyPairsLoop cfg dp ds fs'
          (make_copy cfg dp f .files (make_copy cfg dp d.1 (.folders d.2) st))

/-- The `for current_directory in os.walk(directory)` loop in copy mode. -/
def copyWalkLoop (cfg : Cfg) : List Triple → SyncSt → SyncSt
  | [], st => st
  | (dp, ds, fs) :: ts, st => copyWalkLoop cfg ts (copyPairsLoop cfg dp ds fs st)

/-- The `object_type` argument of `delete_files`. -/
inductive ObjKind where
  | folders
  | files

/-- The state threaded through the deletion loop: the replica disk and the
log of deletions performed. -/
structure DelSt where
  disk : List FsPath
  deletedFolderLog : List FsPath
  deletedFileLog : List FsPath

/-- `delete_files` (synchronizer.py:112-135): maps the source-namespace path
to the replica namespace with `str.replace`; if that path exists on the
replica disk, removes it (`shutil.rmtree` removes the directory and
everything below it, `os.remove` the single file) and logs the deletion;
otherwise it silently does nothing. -/
def delete_files (cfg : Cfg) (directory_object : FsPath) (object_type : ObjKind)
    (st : DelSt) : DelSt :=
  let replica_absolute_path :=
    pyReplace directory_object cfg.source_directory_path cfg.replica_directory_path
  if replica_absolute_path ∈ st.disk then
    match object_type with
    | .folders =>
        { st with
          disk := st.disk.filter
            (fun q => decide (¬ (q = replica_absolute_path ∨
              replica_absolute_path ++ ['/'] <+: q))),
          deletedFolderLog := directory_object :: st.deletedFolderLog }
    | .files =>
        { st with
          disk := st.disk.filter (fun q => decide (q ≠ replica_absolute_path)),
          deletedFileLog := directory_object :: st.deletedFileLog }
  else st

/-- The tail of the `zip_longest(deleted_folders, deleted_files)` loop once
the deleted folders are exhausted. -/
def deleteFilesLoop (cfg : Cfg) : List FsPath → DelSt → DelSt
  | [], st => st
  | q :: qs, st => deleteFilesLoop cfg qs (delete_files cfg q .files st)

/-- The `zip_longest(deleted_folders, deleted_files)` loop of
`check_folder_state` (lines 169-173): in each iteration the folder (if any)
is deleted first, then the file (if any). -/
def deletePairsLoop (cfg : Cfg) : List FsPath → List FsPath → DelSt → DelSt
  | [], qs, st => deleteFilesLoop cfg qs st
  | p :: ps, qs, st =>
    match qs with
    | [] => deletePairsLoop cfg ps [] (delete_files cfg p .folders st)
    | q :: qs' =>
        deletePairsLoop cfg ps qs'
          (delete_files cfg q .files (delete_files cfg p .folders st))

/-- The tail of the state-collection `zip_longest` loop once the folder
names are exhausted. -/
def collectFilesLoop (cfg : Cfg) (dp : FsPath) : List (List Char) → FolderState → FolderState
  | [], fs => fs
  | f :: fl, fs =>
      collectFilesLoop cfg dp fl
        { fs with files := fs.files.insert (get_absolute_path cfg dp f) }

/-- The `zip_longest` loop of `check_folder_state` with `state_only=True`
(lines 154-159): each folder and file path is inserted, expressed in the
source namespace via `get_absolute_path`. -/
def collectPairsLoop (cfg : Cfg) (dp : FsPath) :
    List (List Char × List Entry) → List (List Char) → FolderState → FolderState
  | [], fl, fs => collectFilesLoop cfg dp fl fs
  | d :: ds, fl, fs =>
    match fl with
    | [] =>
        collectPairsLoop cfg dp ds []
          { fs with folders := fs.folders.insert (get_absolute_path cfg dp d.1) }
    | f :: fl' =>
        collectPairsLoop cfg dp ds fl'
          { folders := fs.folders.insert (get_absolute_path cfg dp d.1),
            files := fs.files.insert (get_absolute_path cfg dp f) }

/-- The `for current_directory in os.walk(directory)` loop in state-collect
mode. -/
def collectWalkLoop (cfg : Cfg) : List Triple → FolderState → FolderState
  | [], fs => fs
  | (dp, ds, fl) :: ts, fs => collectWalkLoop cfg ts (collectPairsLoop cfg dp ds fl fs)

/-- The result of one `check_folder_state` call in copy mode: the rotated
replica baseline, the final replica disk, the copy logs, the computed
deletion sets (lines 166-167), the performed-deletion logs, and the number
of mutating operations applied to the stored replica snapshot during the
call (the `add` of line 96 for each copy, plus the wholesale replacement of
line 175). -/
structure CycleOut where
  replica_folder_state : FolderState
  disk : List FsPath
  copiedFolders : List FsPath
  copiedFiles : List FsPath
  deleted_folders : List FsPath
  deleted_files : List FsPath
  deletedFolderLog : List FsPath
  deletedFileLog : List FsPath
  replicaMutations : Nat

/-- `check_folder_state(source_directory_path, source_folder_state)`
(synchronizer.py:137-180), one reconciliation cycle over the source tree.
At entry `source_folder_state` is the fresh empty dictionary installed by
the previous rotation (or by the seeding call), so the model starts from the
empty state.  After the walk, `deleted_folders`/`deleted_files` are the set
differences of the replica and source folder states (lines 166-167), the
deletion loop runs, and the rotation of lines 175-180 replaces the stored
replica snapshot wholesale with the source snapshot and installs a fresh
empty source state. -/
def check_folder_state (cfg : Cfg) (tree : List Entry)
    (replica0 : FolderState) (disk0 : List FsPath) : CycleOut :=
  let st0 : SyncSt :=
    { source_folder_state := emptyState, replica_folder_state := replica0,
      disk := disk0, copiedFolders := [], copiedFiles := [], replicaMutations := 0 }
  let st := copyWalkLoop cfg (osWalk cfg.source_directory_path tree) st0
  let deleted_folders := st.replica_folder_state.folders.filter
    (fun p => decide (¬ p ∈ st.source_folder_state.folders))
  let deleted_files := st.replica_folder_state.files.filter
    (fun p => decide (¬ p ∈ st.source_folder_state.files))
  let dst := deletePairsLoop cfg deleted_folders deleted_files ⟨st.disk, [], []⟩
  { replica_folder_state := st.source_folder_state,
    disk := dst.disk,
    copiedFolders := st.copiedFolders, copiedFiles := st.copiedFiles,
    deleted_folders := deleted_folders, deleted_files := deleted_files,
    deletedFolderLog := dst.deletedFolderLog, deletedFileLog := dst.deletedFileLog,
    replicaMutations := st.replicaMutations + 1 }

/-- The seeding call `check_folder_state(replica_directory_path,
replica_folder_state, state_only=True)` made at the start of
`run_synchronizer` (line 256).  At that point `replica_folder_state` and
`source_folder_state` are the *same* dictionary (`set_arguments`, line 234
binds both names to one object), so the walk's insertions land in both; the
deletion sets of lines 166-167 are the set difference of that dictionary
with itself, hence empty, so the deletion loop does nothing; the rotation of
line 175 rebinds `replica_folder_state` to the same object and line 177
installs a fresh empty `source_folder_state`.  The net effect is that the
stored replica baseline becomes the collected replica state, expressed in
the source namespace via `get_absolute_path`. -/
def seed_replica_state (cfg : Cfg) (replicaTree : List Entry) : FolderState :=
  collectWalkLoop cfg (osWalk cfg.replica_directory_path replicaTree) emptyState

/-- The tree snapshot operation (`os.walk` in state-collect mode) on a root
that may be missing or unreadable: `os.walk` yields no triples for such a
root, so the collected snapshot is empty and no exception propagates. -/
def snapshot_state (cfg : Cfg) (root : FsPath) (fs : Option (List Entry)) : FolderState :=
  collectWalkLoop cfg (osWalkChecked root fs) emptyState

/-- The first reconciliation cycle as `run_synchronizer` performs it
(lines 251-259): seed the baseline from the replica tree, then run
`check_folder_state` over the source tree.  The replica disk initially holds
exactly the replica tree's paths. -/
def first_cycle (cfg : Cfg) (replicaTree sourceTree : List Entry) : CycleOut :=
  check_folder_state cfg sourceTree (seed_replica_state cfg replicaTree)
    (entriesPaths cfg.replica_directory_path replicaTree)

/-! ## Startup argument validation -/

/-- Outcome of `float(eval(argument))` for the interval argument: a numeric
value (modelled as a rational), an exception among `ValueError`, `TypeError`
and `NameError` (the tuple caught at line 213), or any other exception
(which `check_arguments` does not catch). -/
inductive EvalFloat where
  | val (q : ℚ)
  | caught
  | uncaught

/-- The process environment `check_arguments` consults: `os.path.exists`,
`os.path.abspath`, `os.getcwd()`, and the result of `float(eval(·))` on the
interval argument. -/
structure ArgEnv where
  pathExists : List Char → Bool
  abspath : List Char → List Char
  cwd : List Char
  evalFloat : List Char → EvalFloat

/-- What the startup validation does: log an error and `sys.exit()` before
the loop, let an uncaught exception propagate, or accept the configuration
(source, replica, numeric interval, log path). -/
inductive ArgOutcome where
  | exit
  | raised
  | ok (source replica : List Char) (interval : ℚ) (log : List Char)

/-- `check_arguments` (synchronizer.py:190-227).  With fewer or more than 4
arguments, logs and exits.  Otherwise the positions are checked in order:
positions 0, 1 and 3 must exist (`os.path.exists`), positions 0 and 1 must
also differ from the working directory — the `position != 3` guard exempts
the log path from that self-referential check; position 2 is converted with
`float(eval(...))`, exiting on a caught `ValueError`/`TypeError`/`NameError`
and propagating any other exception.  No check constrains the sign of the
interval; the accepted value is stored and later passed to `time.sleep`
unchanged (line 259). -/
def check_arguments (env : ArgEnv) (args : List (List Char)) : ArgOutcome :=
  match args with
  | [a0, a1, a2, a3] =>
    if env.pathExists a0 = false then .exit
    else if env.abspath a0 = env.cwd then .exit
    else if env.pathExists a1 = false then .exit
    else if env.abspath a1 = env.cwd then .exit
    else
      match env.evalFloat a2 with
      | .caught => .exit
      | .uncaught => .raised
      | .val q =>
        if env.pathExists a3 = false then .exit
        else .ok a0 a1 q a3
  | _ => .exit

/-- With exactly four arguments, `check_arguments` either exits on one of
the first four directory checks, or all of them pass and the result is
decided by the interval conversion and the log-path existence check. -/
theorem check_arguments_cases (env : ArgEnv) (a0 a1 a2 a3 : List Char) :
    check_arguments env [a0, a1, a2, a3] = .exit ∨
      (env.pathExists a0 = true ∧ env.abspath a0 ≠ env.cwd ∧
       env.pathExists a1 = true ∧ env.abspath a1 ≠ env.cwd ∧
       check_arguments env [a0, a1, a2, a3]
         = match env.evalFloat a2 with
           | .caught => .exit
           | .uncaught => .raised
           | .val q => if env.pathExists a3 = false then .exit else .ok a0 a1 q a3) := by
  simp only [check_arguments]
  by_cases e0 : env.pathExists a0 = false
  · left; rw [if_pos e0]
  · rw [if_neg e0]
    by_cases w0 : env.abspath a0 = env.cwd
    · left; rw [if_pos w0]
    · rw [if_neg w0]
      by_cases e1 : env.pathExists a1 = false
      · left; rw [if_pos e1]
      · rw [if_neg e1]
        by_cases w1 : env.abspath a1 = env.cwd
        · left; rw [if_pos w1]
        · rw [if_neg w1]
          right
          exact ⟨Bool.not_eq_false _ |>.mp e0, w0, Bool.not_eq_false _ |>.mp e1, w1, rfl⟩

/-- **C7, counterexample.**  The claim states that snapshotting a
nonexistent or unreadable root propagates a `FilesystemError` rather than
returning an empty snapshot.  The walk at line 150 is `os.walk` with its
default `onerror=None`, which swallows the scandir error: walking such a
root yields no triples, so the snapshot operation returns the *empty*
snapshot — it is total and has no error to propagate. -/
theorem c7_counterexample :
    snapshot_state ⟨"/s".toList, "/r".toList⟩ "/missing".toList none = emptyState := rfl

/-- **C7 (amended).**  If the root path given to the tree snapshot walk does
not exist or is unreadable, `os.walk` yields no entries, so the snapshot
operation returns an empty snapshot to its caller and no error propagates. -/
theorem c7_missing_root_empty_snapshot (cfg : Cfg) (root : FsPath) :
    snapshot_state cfg root none = emptyState := rfl

/-- **C9, counterexample.**  The claim states that *every* startup
configuration with a self-referential (equal to the working directory)
directory argument exits immediately.  The self-referential check at
line 222 carries the guard `position != 3`, which exempts the log-path
argument: here the log path equals the working directory `"/w"` and the
program accepts the configuration and proceeds into the loop. -/
theorem c9_counterexample :
    check_arguments
      { pathExists := fun _ => true, abspath := fun p => p, cwd := "/w".toList,
        evalFloat := fun _ => .val 5 }
      ["/a".toList, "/b".toList, "5".toList, "/w".toList]
      = .ok "/a".toList "/b".toList 5 "/w".toList := rfl

/-- **C9 (amended).**  For every startup configuration with a wrong argument
count, with an interval whose conversion raises a caught error (the
non-numeric case), with a nonexistent source or replica argument, with a
nonexistent log argument (provided the interval conversion does not raise an
uncaught exception first), or with a source or replica argument equal to the
working directory, the program reports the error to the log sink and exits
immediately without entering the synchronization loop.  A log-path argument
equal to the working directory is *not* rejected (`position != 3`,
line 222). -/
theorem c9_startup_validation (env : ArgEnv) (args : List (List Char))
    (a0 a1 a2 a3 : List Char) :
    (args.length ≠ 4 → check_arguments env args = .exit) ∧
    (args = [a0, a1, a2, a3] →
      ((env.evalFloat a2 = .caught → check_arguments env args = .exit) ∧
       (env.pathExists a0 = false → check_arguments env args = .exit) ∧
       (env.pathExists a1 = false → check_arguments env args = .exit) ∧
       (env.pathExists a3 = false → env.evalFloat a2 ≠ .uncaught →
          check_arguments env args = .exit) ∧
       (env.abspath a0 = env.cwd → check_arguments env args = .exit) ∧
       (env.abspath a1 = env.cwd → check_arguments env args = .exit))) := by
  constructor
  · intro h
    rcases args with _ | ⟨x0, args⟩
    · rfl
    rcases args with _ | ⟨x1, args⟩
    · rfl
    rcases args with _ | ⟨x2, args⟩
    · rfl
    rcases args with _ | ⟨x3, args⟩
    · rfl
    rcases args with _ | ⟨x4, args⟩
    · simp at h
    · rfl
  · intro heq
    subst heq
    refine ⟨?_, ?_, ?_, ?_, ?_, ?_⟩
    · intro hc
      rcases check_arguments_cases env a0 a1 a2 a3 with h | ⟨_, _, _, _, h⟩
      · exact h
      · rw [h, hc]
    · intro h0
      simp only [check_arguments]
      rw [if_pos h0]
    · intro h1
      simp only [check_arguments]
      by_cases e0 : env.pathExists a0 = false
      · rw [if_pos e0]
      · rw [if_neg e0]
        by_cases w0 : env.abspath a0 = env.cwd
        · rw [if_pos w0]
        · rw [if_neg w0, if_pos h1]
    · intro h3 hu
      rcases check_arguments_cases env a0 a1 a2 a3 with h | ⟨_, _, _, _, h⟩
      · exact h
      · rw [h]
        cases hev : env.evalFloat a2 with
        | caught => rfl
        | uncaught => exact absurd hev hu
        | val q =>
          show (if env.pathExists a3 = false then ArgOutcome.exit
            else ArgOutcome.ok a0 a1 q a3) = ArgOutcome.exit
          rw [if_pos h3]
    · intro w0
      simp only [check_arguments]
      by_cases e0 : env.pathExists a0 = false
      · rw [if_pos e0]
      · rw [if_neg e0, if_pos w0]
    · intro w1
      simp only [check_arguments]
      by_cases e0 : env.pathExists a0 = false
      · rw [if_pos e0]
      · rw [if_neg e0]
        by_cases w0 : env.abspath a0 = env.cwd
        · rw [if_pos w0]
        · rw [if_neg w0]
          by_cases e1 : env.pathExists a1 = false
          · rw [if_pos e1]
          · rw [if_neg e1, if_pos w1]

/-- **C9, witness.**  The amended validation at a concrete input: an empty
argument list (wrong count) exits before the loop. -/
theorem c9_startup_validation_witness :
    check_arguments
      { pathExists := fun _ => true, abspath := fun p => p, cwd := "/w".toList,
        evalFloat := fun _ => .val 5 } [] = .exit :=
  (c9_startup_validation _ [] [] [] [] []).1 (by decide)

/-- **C10.**  The interval argument is accepted whenever `float(eval(arg))`
yields a value `q` — whatever that value is: arithmetic expressions such as
`"2*3"` pass because `eval` reduces them to a number, and zero or negative
values pass because no positivity check appears anywhere between the
conversion (line 212) and the use of the stored interval as the sleep
duration (`time.sleep(self.interval)`, line 259).  The accepted
configuration stores exactly `q` as the interval. -/
theorem c10_interval_accepted (env : ArgEnv) (a0 a1 a2 a3 : List Char) (q : ℚ)
    (h0 : env.pathExists a0 = true) (w0 : env.abspath a0 ≠ env.cwd)
    (h1 : env.pathExists a1 = true) (w1 : env.abspath a1 ≠ env.cwd)
    (h3 : env.pathExists a3 = true)
    (hq : env.evalFloat a2 = .val q) :
    check_arguments env [a0, a1, a2, a3] = .ok a0 a1 q a3 := by
  simp only [check_arguments]
  rw [if_neg (by simp [h0]), if_neg w0, if_neg (by simp [h1]), if_neg w1, hq]
  show (if env.pathExists a3 = false then ArgOutcome.exit
    else ArgOutcome.ok a0 a1 q a3) = ArgOutcome.ok a0 a1 q a3
  rw [if_neg (by simp [h3])]

/-- **C10, witness.**  A concrete environment in which the interval argument
is the arithmetic expression `"2*3-9"`, evaluating to the negative value
`-3`: startup validation accepts it and stores `-3` as the interval. -/
theorem c10_interval_accepted_witness :
    check_arguments
      { pathExists := fun _ => true, abspath := fun _ => "/x".toList, cwd := "/w".toList,
        evalFloat := fun s => if s = "2*3-9".toList then .val (-3) else .caught }
      ["/a".toList, "/b".toList, "2*3-9".toList, "/c".toList]
      = .ok "/a".toList "/b".toList (-3) "/c".toList :=
  c10_interval_accepted _ "/a".toList "/b".toList "2*3-9".toList "/c".toList (-3)
    rfl (by decide) rfl (by decide) rfl (by simp)

/-! ## The loops, flattened into action lists

The three `zip_longest` loops (copy, collect, delete) all process the walk's
entries in the same order.  To reason about them uniformly, the processed
sequence is flattened into a list of actions; the loop functions are proved
equal to folds over that list. -/

/-- One flattened iteration step of the copy/collect loops: a folder entry
(with its subtree) or a file entry, together with the `dirpath` of the walk
triple it came from. -/
inductive Act where
  | folder (dp : FsPath) (name : List Char) (children : List Entry)
  | file (dp : FsPath) (name : List Char)

/-- The source-namespace path of an action's entry. -/
def actPath : Act → FsPath
  | .folder dp n _ => pathJoin dp n
  | .file dp n => pathJoin dp n

/-- The actions of one triple's `zip_longest` loop, in iteration order. -/
def pairActs (dp : FsPath) : List (List Char × List Entry) → List (List Char) → List Act
  | [], fs => fs.map (Act.file dp)
  | d :: ds, [] => Act.folder dp d.1 d.2 :: pairActs dp ds []
  | d :: ds, f :: fs => Act.folder dp d.1 d.2 :: Act.file dp f :: pairActs dp ds fs

/-- The actions of a whole walk, in processing order. -/
def tripleActs : List Triple → List Act
  | [] => []
  | (dp, ds, fs) :: ts => pairActs dp ds fs ++ tripleActs ts

/-- The folder paths named by a list of actions, in order. -/
def actsFolders : List Act → List FsPath
  | [] => []
  | .folder dp n _ :: l => pathJoin dp n :: actsFolders l
  | .file _ _ :: l => actsFolders l

/-- The file paths named by a list of actions, in order. -/
def actsFiles : List Act → List FsPath
  | [] => []
  | .folder _ _ _ :: l => actsFiles l
  | .file dp n :: l => pathJoin dp n :: actsFiles l

/-- One copy action, as `make_copy` performs it. -/
def runAct (cfg : Cfg) (st : SyncSt) : Act → SyncSt
  | .folder dp n cs => make_copy cfg dp n (.folders cs) st
  | .file dp n => make_copy cfg dp n .files st

/-- The copy loop as a fold over the flattened action list. -/
def runActs (cfg : Cfg) : List Act → SyncSt → SyncSt
  | [], st => st
  | a :: l, st => runActs cfg l (runAct cfg st a)

/-- One collect action, as the `state_only` branch performs it. -/
def collectAct (cfg : Cfg) (fs : FolderState) : Act → FolderState
  | .folder dp n _ =>
      { fs with folders := fs.folders.insert (get_absolute_path cfg dp n) }
  | .file dp n =>
      { fs with files := fs.files.insert (get_absolute_path cfg dp n) }

/-- The collect loop as a fold over the flattened action list. -/
def collectActs (cfg : Cfg) : List Act → FolderState → FolderState
  | [], fs => fs
  | a :: l, fs => collectActs cfg l (collectAct cfg fs a)

/-- The deletion loop, flattened: each step deletes one folder or file. -/
def delActs : List FsPath → List FsPath → List (FsPath × ObjKind)
  | [], qs => qs.map (fun q => (q, ObjKind.files))
  | p :: ps, [] => (p, ObjKind.folders) :: delActs ps []
  | p :: ps, q :: qs => (p, ObjKind.folders) :: (q, ObjKind.files) :: delActs ps qs

/-- The deletion loop as a fold over the flattened action list. -/
def runDels (cfg : Cfg) : List (FsPath × ObjKind) → DelSt → DelSt
  | [], st => st
  | (p, k) :: l, st => runDels cfg l (delete_files cfg p k st)

theorem runActs_append (cfg : Cfg) (l₁ l₂ : List Act) (st : SyncSt) :
    runActs cfg (l₁ ++ l₂) st = runActs cfg l₂ (runActs cfg l₁ st) := by
  induction l₁ generalizing st with
  | nil => rfl
  | cons a l ih =>
    simp only [List.cons_append, runActs, List.append_eq, ih]

theorem copyFilesLoop_eq (cfg : Cfg) (dp : FsPath) (fs : List (List Char)) (st : SyncSt) :
    copyFilesLoop cfg dp fs st = runActs cfg (fs.map (Act.file dp)) st := by
  induction fs generalizing st with
  | nil => rfl
  | cons f fs ih => simp only [copyFilesLoop, List.map_cons, runActs, runAct, ih]

theorem copyPairsLoop_eq (cfg : Cfg) (dp : FsPath)
    (ds : List (List Char × List Entry)) (fs : List (List Char)) (st : SyncSt) :
    copyPairsLoop cfg dp ds fs st = runActs cfg (pairActs dp ds fs) st := by
  induction ds generalizing fs st with
  | nil => exact copyFilesLoop_eq cfg dp fs st
  | cons d ds ih =>
    cases fs with
    | nil => simp only [copyPairsLoop, pairActs, runActs, runAct, ih]
    | cons f fs => simp only [copyPairsLoop, pairActs, runActs, runAct, ih]

theorem copyWalkLoop_eq (cfg : Cfg) (ts : List Triple) (st : SyncSt) :
    copyWalkLoop cfg ts st = runActs cfg (tripleActs ts) st := by
  induction ts generalizing st with
  | nil => rfl
  | cons t ts ih =>
    obtain ⟨dp, ds, fs⟩ := t
    simp only [copyWalkLoop, tripleActs, runActs_append, ih, copyPairsLoop_eq]

theorem collectActs_append (cfg : Cfg) (l₁ l₂ : List Act) (fs : FolderState) :
    collectActs cfg (l₁ ++ l₂) fs = collectActs cfg l₂ (collectActs cfg l₁ fs) := by
  induction l₁ generalizing fs with
  | nil => rfl
  | cons a l ih =>
    simp only [List.cons_append, collectActs, List.append_eq, ih]

theorem collectFilesLoop_eq (cfg : Cfg) (dp : FsPath) (fl : List (List Char))
    (fs : FolderState) :
    collectFilesLoop cfg dp fl fs = collectActs cfg (fl.map (Act.file dp)) fs := by
  induction fl generalizing fs with
  | nil => rfl
  | cons f fl ih => simp only [collectFilesLoop, List.map_cons, collectActs, collectAct, ih]

theorem collectPairsLoop_eq (cfg : Cfg) (dp : FsPath)
    (ds : List (List Char × List Entry)) (fl : List (List Char)) (fs : FolderState) :
    collectPairsLoop cfg dp ds fl fs = collectActs cfg (pairActs dp ds fl) fs := by
  induction ds generalizing fl fs with
  | nil => exact collectFilesLoop_eq cfg dp fl fs
  | cons d ds ih =>
    cases fl with
    | nil => simp only [collectPairsLoop, pairActs, collectActs, collectAct, ih]
    | cons f fl => simp only [collectPairsLoop, pairActs, collectActs, collectAct, ih]

theorem collectWalkLoop_eq (cfg : Cfg) (ts : List Triple) (fs : FolderState) :
    collectWalkLoop cfg ts fs = collectActs cfg (tripleActs ts) fs := by
  induction ts generalizing fs with
  | nil => rfl
  | cons t ts ih =>
    obtain ⟨dp, ds, fl⟩ := t
    simp only [collectWalkLoop, tripleActs, collectActs_append, ih, collectPairsLoop_eq]

theorem deleteFilesLoop_eq (cfg : Cfg) (qs : List FsPath) (st : DelSt) :
    deleteFilesLoop cfg qs st = runDels cfg (qs.map (fun q => (q, ObjKind.files))) st := by
  induction qs generalizing st with
  | nil => rfl
  | cons q qs ih => simp only [deleteFilesLoop, List.map_cons, runDels, ih]

theorem deletePairsLoop_eq (cfg : Cfg) (ps qs : List FsPath) (st : DelSt) :
    deletePairsLoop cfg ps qs st = runDels cfg (delActs ps qs) st := by
  induction ps generalizing qs st with
  | nil => exact deleteFilesLoop_eq cfg qs st
  | cons p ps ih =>
    cases qs with
    | nil => simp only [deletePairsLoop, delActs, runDels, ih]
    | cons q qs => simp only [deletePairsLoop, delActs, runDels, ih]

/-- The walk triples' folder paths, in order. -/
def triplesFolders : List Triple → List FsPath
  | [] => []
  | (dp, ds, _) :: ts => ds.map (fun d => pathJoin dp d.1) ++ triplesFolders ts

/-- The walk triples' file paths, in order. -/
def triplesFiles : List Triple → List FsPath
  | [] => []
  | (dp, _, fs) :: ts => fs.map (pathJoin dp) ++ triplesFiles ts

theorem actsFolders_append (l₁ l₂ : List Act) :
    actsFolders (l₁ ++ l₂) = actsFolders l₁ ++ actsFolders l₂ := by
  induction l₁ with
  | nil => rfl
  | cons a l ih =>
    cases a <;> simp only [List.cons_append, actsFolders, List.append_eq, ih]

theorem actsFiles_append (l₁ l₂ : List Act) :
    actsFiles (l₁ ++ l₂) = actsFiles l₁ ++ actsFiles l₂ := by
  induction l₁ with
  | nil => rfl
  | cons a l ih =>
    cases a <;> simp only [List.cons_append, actsFiles, List.append_eq, ih]

theorem actsFolders_pairActs (dp : FsPath) (ds : List (List Char × List Entry))
    (fs : List (List Char)) :
    actsFolders (pairActs dp ds fs) = ds.map (fun d => pathJoin dp d.1) := by
  induction ds generalizing fs with
  | nil =>
    induction fs with
    | nil => rfl
    | cons f fs ihf => simp only [pairActs, List.map_cons, actsFolders] at ihf ⊢; exact ihf
  | cons d ds ih =>
    cases fs with
    | nil => simp only [pairActs, actsFolders, List.map_cons, ih]
    | cons f fs => simp only [pairActs, actsFolders, List.map_cons, ih]

theorem actsFiles_pairActs (dp : FsPath) (ds : List (List Char × List Entry))
    (fs : List (List Char)) :
    actsFiles (pairActs dp ds fs) = fs.map (pathJoin dp) := by
  induction ds generalizing fs with
  | nil =>
    induction fs with
    | nil => rfl
    | cons f fs ihf => simp only [pairActs, List.map_cons, actsFiles] at ihf ⊢; rw [ihf]
  | cons d ds ih =>
    cases fs with
    | nil => simp only [pairActs, actsFiles, ih, List.map_nil]
    | cons f fs => simp only [pairActs, actsFiles, List.map_cons, ih]

theorem actsFolders_tripleActs (ts : List Triple) :
    actsFolders (tripleActs ts) = triplesFolders ts := by
  induction ts with
  | nil => rfl
  | cons t ts ih =>
    obtain ⟨dp, ds, fs⟩ := t
    simp only [tripleActs, triplesFolders, actsFolders_append, actsFolders_pairActs, ih]

theorem actsFiles_tripleActs (ts : List Triple) :
    actsFiles (tripleActs ts) = triplesFiles ts := by
  induction ts with
  | nil => rfl
  | cons t ts ih =>
    obtain ⟨dp, ds, fs⟩ := t
    simp only [tripleActs, triplesFiles, actsFiles_append, actsFiles_pairActs, ih]

/-! ## Invariants of the copy phase -/

/-- `make_copy` on a folder whose replica path already exists: only the
source folder state changes (line 110). -/
theorem make_copy_folder_hit (cfg : Cfg) (dp : FsPath) (n : List Char)
    (cs : List Entry) (st : SyncSt)
    (h : pyReplace (pathJoin dp n) cfg.source_directory_path cfg.replica_directory_path
      ∈ st.disk) :
    make_copy cfg dp n (.folders cs) st
      = { st with source_folder_state :=
            { st.source_folder_state with
              folders := st.source_folder_state.folders.insert (pathJoin dp n) } } := by
  simp only [make_copy]
  rw [if_pos h]

/-- `make_copy` on a folder whose replica path is absent: the folder is
recorded in the replica state, its subtree lands on the replica disk, and
the copy is logged. -/
theorem make_copy_folder_miss (cfg : Cfg) (dp : FsPath) (n : List Char)
    (cs : List Entry) (st : SyncSt)
    (h : pyReplace (pathJoin dp n) cfg.source_directory_path cfg.replica_directory_path
      ∉ st.disk) :
    make_copy cfg dp n (.folders cs) st
      = { source_folder_state :=
            { st.source_folder_state with
              folders := st.source_folder_state.folders.insert (pathJoin dp n) },
          replica_folder_state :=
            { st.replica_folder_state with
              folders := st.replica_folder_state.folders.insert (pathJoin dp n) },
          disk := pyReplace (pathJoin dp n) cfg.source_directory_path
              cfg.replica_directory_path ::
            entriesPaths (pyReplace (pathJoin dp n) cfg.source_directory_path
              cfg.replica_directory_path) cs ++ st.disk,
          copiedFolders := pathJoin dp n :: st.copiedFolders,
          copiedFiles := st.copiedFiles,
          replicaMutations := st.replicaMutations + 1 } := by
  simp only [make_copy]
  rw [if_neg h]

/-- `make_copy` on a file whose replica path already exists. -/
theorem make_copy_file_hit (cfg : Cfg) (dp : FsPath) (n : List Char) (st : SyncSt)
    (h : pyReplace (pathJoin dp n) cfg.source_directory_path cfg.replica_directory_path
      ∈ st.disk) :
    make_copy cfg dp n .files st
      = { st with source_folder_state :=
            { st.source_folder_state with
              files := st.source_folder_state.files.insert (pathJoin dp n) } } := by
  simp only [make_copy]
  rw [if_pos h]

/-- `make_copy` on a file whose replica path is absent. -/
theorem make_copy_file_miss (cfg : Cfg) (dp : FsPath) (n : List Char) (st : SyncSt)
    (h : pyReplace (pathJoin dp n) cfg.source_directory_path cfg.replica_directory_path
      ∉ st.disk) :
    make_copy cfg dp n .files st
      = { source_folder_state :=
            { st.source_folder_state with
              files := st.source_folder_state.files.insert (pathJoin dp n) },
          replica_folder_state :=
            { st.replica_folder_state with
              files := st.replica_folder_state.files.insert (pathJoin dp n) },
          disk := pyReplace (pathJoin dp n) cfg.source_directory_path
              cfg.replica_directory_path :: st.disk,
          copiedFolders := st.copiedFolders,
          copiedFiles := pathJoin dp n :: st.copiedFiles,
          replicaMutations := st.replicaMutations + 1 } := by
  simp only [make_copy]
  rw [if_neg h]

/-- The evolution of the source folder state alone: every walked entry's
path is inserted, unconditionally. -/
def sourceRun : List Act → FolderState → FolderState
  | [], fs => fs
  | .folder dp n _ :: l, fs =>
      sourceRun l { fs with folders := fs.folders.insert (pathJoin dp n) }
  | .file dp n :: l, fs =>
      sourceRun l { fs with files := fs.files.insert (pathJoin dp n) }

/-- The source folder state after the copy loop depends only on the walked
entries, not on the replica state or the disk. -/
theorem runActs_source (cfg : Cfg) (acts : List Act) (st : SyncSt) :
    (runActs cfg acts st).source_folder_state
      = sourceRun acts st.source_folder_state := by
  induction acts generalizing st with
  | nil => rfl
  | cons a l ih =>
    cases a with
    | folder dp n cs =>
      simp only [runActs, runAct, sourceRun]
      rw [ih]
      by_cases h : pyReplace (pathJoin dp n) cfg.source_directory_path
          cfg.replica_directory_path ∈ st.disk
      · rw [make_copy_folder_hit cfg dp n cs st h]
      · rw [make_copy_folder_miss cfg dp n cs st h]
    | file dp n =>
      simp only [runActs, runAct, sourceRun]
      rw [ih]
      by_cases h : pyReplace (pathJoin dp n) cfg.source_directory_path
          cfg.replica_directory_path ∈ st.disk
      · rw [make_copy_file_hit cfg dp n st h]
      · rw [make_copy_file_miss cfg dp n st h]

theorem sourceRun_folders_mem (acts : List Act) (fs : FolderState) (x : FsPath) :
    x ∈ (sourceRun acts fs).folders ↔ x ∈ fs.folders ∨ x ∈ actsFolders acts := by
  induction acts generalizing fs with
  | nil => simp [sourceRun, actsFolders]
  | cons a l ih =>
    cases a with
    | folder dp n cs =>
      simp only [sourceRun, actsFolders, ih, List.mem_insert_iff, List.mem_cons]
      tauto
    | file dp n =>
      simp only [sourceRun, actsFolders, ih]

theorem sourceRun_files_mem (acts : List Act) (fs : FolderState) (x : FsPath) :
    x ∈ (sourceRun acts fs).files ↔ x ∈ fs.files ∨ x ∈ actsFiles acts := by
  induction acts generalizing fs with
  | nil => simp [sourceRun, actsFiles]
  | cons a l ih =>
    cases a with
    | folder dp n cs =>
      simp only [sourceRun, actsFiles, ih]
    | file dp n =>
      simp only [sourceRun, actsFiles, ih, List.mem_insert_iff, List.mem_cons]
      tauto

/-- Master invariant of the copy loop: the copies performed are a prefix
added to the copy log; each copied path is a walked path whose mapped
replica path was absent from the initial disk; the replica folder state
grows exactly by the copied paths; the disk only grows; and the stored
replica snapshot is mutated once per copy performed. -/
theorem runActs_master (cfg : Cfg) (acts : List Act) (st : SyncSt) :
    ∃ df dfi : List FsPath,
      (runActs cfg acts st).copiedFolders = df ++ st.copiedFolders ∧
      (runActs cfg acts st).copiedFiles = dfi ++ st.copiedFiles ∧
      (∀ x ∈ df, x ∈ actsFolders acts ∧
        pyReplace x cfg.source_directory_path cfg.replica_directory_path ∉ st.disk) ∧
      (∀ x ∈ dfi, x ∈ actsFiles acts ∧
        pyReplace x cfg.source_directory_path cfg.replica_directory_path ∉ st.disk) ∧
      (∀ x, x ∈ (runActs cfg acts st).replica_folder_state.folders ↔
        x ∈ df ∨ x ∈ st.replica_folder_state.folders) ∧
      (∀ x, x ∈ (runActs cfg acts st).replica_folder_state.files ↔
        x ∈ dfi ∨ x ∈ st.replica_folder_state.files) ∧
      (∀ x ∈ st.disk, x ∈ (runActs cfg acts st).disk) ∧
      (runActs cfg acts st).replicaMutations
        = st.replicaMutations + df.length + dfi.length := by
  induction acts generalizing st with
  | nil =>
    exact ⟨[], [], rfl, rfl, by simp, by simp,
      fun x => by simp [runActs], fun x => by simp [runActs],
      fun x hx => hx, rfl⟩
  | cons a l ih =>
    cases a with
    | folder dp n cs =>
      by_cases h : pyReplace (pathJoin dp n) cfg.source_directory_path
          cfg.replica_directory_path ∈ st.disk
      · obtain ⟨df, dfi, h1, h2, h3, h4, h5, h6, h7, h8⟩ :=
          ih (make_copy cfg dp n (.folders cs) st)
        rw [make_copy_folder_hit cfg dp n cs st h] at h1 h2 h3 h4 h5 h6 h7 h8
        dsimp only at h1 h2 h3 h4 h5 h6 h7 h8
        simp only [runActs, runAct, make_copy_folder_hit cfg dp n cs st h]
        refine ⟨df, dfi, h1, h2, ?_, h4, h5, h6, h7, h8⟩
        intro x hx
        exact ⟨List.mem_cons_of_mem _ (h3 x hx).1, (h3 x hx).2⟩
      · obtain ⟨df, dfi, h1, h2, h3, h4, h5, h6, h7, h8⟩ :=
          ih (make_copy cfg dp n (.folders cs) st)
        rw [make_copy_folder_miss cfg dp n cs st h] at h1 h2 h3 h4 h5 h6 h7 h8
        dsimp only at h1 h2 h3 h4 h5 h6 h7 h8
        simp only [runActs, runAct, make_copy_folder_miss cfg dp n cs st h]
        refine ⟨df ++ [pathJoin dp n], dfi, ?_, h2, ?_, ?_, ?_, h6, ?_, ?_⟩
        · rw [h1]; simp
        · intro x hx
          rcases List.mem_append.mp hx with hx | hx
          · exact ⟨List.mem_cons_of_mem _ (h3 x hx).1,
              fun hd => (h3 x hx).2
                (List.mem_cons_of_mem _ (List.mem_append_right _ hd))⟩
          · rcases List.mem_singleton.mp hx with rfl
            exact ⟨by simp [actsFolders], h⟩
        · intro x hx
          exact ⟨(h4 x hx).1,
            fun hd => (h4 x hx).2
              (List.mem_cons_of_mem _ (List.mem_append_right _ hd))⟩
        · intro x
          rw [h5 x]
          simp only [List.mem_insert_iff, List.mem_append, List.mem_singleton]
          tauto
        · intro x hx
          exact h7 x (List.mem_cons_of_mem _ (List.mem_append_right _ hx))
        · rw [h8]
          simp only [List.length_append, List.length_singleton]
          omega
    | file dp n =>
      by_cases h : pyReplace (pathJoin dp n) cfg.source_directory_path
          cfg.replica_directory_path ∈ st.disk
      · obtain ⟨df, dfi, h1, h2, h3, h4, h5, h6, h7, h8⟩ :=
          ih (make_copy cfg dp n .files st)
        rw [make_copy_file_hit cfg dp n st h] at h1 h2 h3 h4 h5 h6 h7 h8
        dsimp only at h1 h2 h3 h4 h5 h6 h7 h8
        simp only [runActs, runAct, make_copy_file_hit cfg dp n st h]
        refine ⟨df, dfi, h1, h2, h3, ?_, h5, h6, h7, h8⟩
        intro x hx
        exact ⟨List.mem_cons_of_mem _ (h4 x hx).1, (h4 x hx).2⟩
      · obtain ⟨df, dfi, h1, h2, h3, h4, h5, h6, h7, h8⟩ :=
          ih (make_copy cfg dp n .files st)
        rw [make_copy_file_miss cfg dp n st h] at h1 h2 h3 h4 h5 h6 h7 h8
        dsimp only at h1 h2 h3 h4 h5 h6 h7 h8
        simp only [runActs, runAct, make_copy_file_miss cfg dp n st h]
        refine ⟨df, dfi ++ [pathJoin dp n], h1, ?_, ?_, ?_, h5, ?_, ?_, ?_⟩
        · rw [h2]; simp
        · intro x hx
          exact ⟨(h3 x hx).1,
            fun hd => (h3 x hx).2 (List.mem_cons_of_mem _ hd)⟩
        · intro x hx
          rcases List.mem_append.mp hx with hx | hx
          · exact ⟨List.mem_cons_of_mem _ (h4 x hx).1,
              fun hd => (h4 x hx).2 (List.mem_cons_of_mem _ hd)⟩
          · rcases List.mem_singleton.mp hx with rfl
            exact ⟨by simp [actsFiles], h⟩
        · intro x
          rw [h6 x]
          simp only [List.mem_insert_iff, List.mem_append, List.mem_singleton]
          tauto
        · intro x hx
          exact h7 x (List.mem_cons_of_mem _ hx)
        · rw [h8]
          simp only [List.length_append, List.length_singleton]
          omega

/-- The state threaded by the spec-side description of Step 1: the additions
recorded so far and the evolving replica disk. -/
structure SpecAddSt where
  copiedFolders : List FsPath
  copiedFiles : List FsPath
  disk : List FsPath

/-- Second definition for the refinement in C1, following the spec's words
rather than the code (§8 "additions are exactly paths in the current source
snapshot whose mapped replica path is absent", §4.3 Step 1): the walk
enumerates the source snapshot in processing order; a folder or file path is
an addition exactly when its mapped replica path does not exist on the
evolving replica disk at the moment it is considered, and a folder addition
materializes the folder's whole subtree on the disk. -/
def specAddAct (cfg : Cfg) (st : SpecAddSt) : Act → SpecAddSt
  | .folder dp n cs =>
    if pyReplace (pathJoin dp n) cfg.source_directory_path cfg.replica_directory_path
        ∈ st.disk then st
    else
      { st with
        copiedFolders := pathJoin dp n :: st.copiedFolders,
        disk := pyReplace (pathJoin dp n) cfg.source_directory_path
            cfg.replica_directory_path ::
          entriesPaths (pyReplace (pathJoin dp n) cfg.source_directory_path
            cfg.replica_directory_path) cs ++ st.disk }
  | .file dp n =>
    if pyReplace (pathJoin dp n) cfg.source_directory_path cfg.replica_directory_path
        ∈ st.disk then st
    else
      { st with
        copiedFiles := pathJoin dp n :: st.copiedFiles,
        disk := pyReplace (pathJoin dp n) cfg.source_directory_path
            cfg.replica_directory_path :: st.disk }

/-- The spec-side additions over a whole walk. -/
def specAdditions (cfg : Cfg) : List Act → SpecAddSt → SpecAddSt
  | [], st => st
  | a :: l, st => specAdditions cfg l (specAddAct cfg st a)

/-- The copy loop's performed copies and final disk coincide with the
spec-side description: the folder states play no role in the decision to
copy, which is governed by the evolving replica disk alone. -/
theorem runActs_specAdditions (cfg : Cfg) (acts : List Act) (st : SyncSt) :
    (runActs cfg acts st).copiedFolders
        = (specAdditions cfg acts ⟨st.copiedFolders, st.copiedFiles, st.disk⟩).copiedFolders ∧
      (runActs cfg acts st).copiedFiles
        = (specAdditions cfg acts ⟨st.copiedFolders, st.copiedFiles, st.disk⟩).copiedFiles ∧
      (runActs cfg acts st).disk
        = (specAdditions cfg acts ⟨st.copiedFolders, st.copiedFiles, st.disk⟩).disk := by
  induction acts generalizing st with
  | nil => exact ⟨rfl, rfl, rfl⟩
  | cons a l ih =>
    cases a with
    | folder dp n cs =>
      by_cases h : pyReplace (pathJoin dp n) cfg.source_directory_path
          cfg.replica_directory_path ∈ st.disk
      · simp only [runActs, runAct, specAdditions, specAddAct,
          make_copy_folder_hit cfg dp n cs st h, if_pos h]
        exact ih _
      · simp only [runActs, runAct, specAdditions, specAddAct,
          make_copy_folder_miss cfg dp n cs st h, if_neg h]
        exact ih _
    | file dp n =>
      by_cases h : pyReplace (pathJoin dp n) cfg.source_directory_path
          cfg.replica_directory_path ∈ st.disk
      · simp only [runActs, runAct, specAdditions, specAddAct,
          make_copy_file_hit cfg dp n st h, if_pos h]
        exact ih _
      · simp only [runActs, runAct, specAdditions, specAddAct,
          make_copy_file_miss cfg dp n st h, if_neg h]
        exact ih _

/-- After the copy loop, the mapped replica path of every processed entry
exists on the replica disk (it either already existed or was just copied). -/
theorem runActs_present (cfg : Cfg) (acts : List Act) (st : SyncSt) :
    ∀ a ∈ acts,
      pyReplace (actPath a) cfg.source_directory_path cfg.replica_directory_path
        ∈ (runActs cfg acts st).disk := by
  induction acts generalizing st with
  | nil => intro a ha; exact absurd ha (List.not_mem_nil a)
  | cons b l ih =>
    intro a ha
    show pyReplace (actPath a) cfg.source_directory_path cfg.replica_directory_path
      ∈ (runActs cfg l (runAct cfg st b)).disk
    rcases List.mem_cons.mp ha with rfl | ha
    · obtain ⟨_, _, _, _, _, _, _, _, h7, _⟩ := runActs_master cfg l (runAct cfg st a)
      apply h7
      cases a with
      | folder dp n cs =>
        by_cases h : pyReplace (pathJoin dp n) cfg.source_directory_path
            cfg.replica_directory_path ∈ st.disk
        · rw [runAct, make_copy_folder_hit cfg dp n cs st h]
          exact h
        · rw [runAct, make_copy_folder_miss cfg dp n cs st h]
          exact List.mem_cons_self _ _
      | file dp n =>
        by_cases h : pyReplace (pathJoin dp n) cfg.source_directory_path
            cfg.replica_directory_path ∈ st.disk
        · rw [runAct, make_copy_file_hit cfg dp n st h]
          exact h
        · rw [runAct, make_copy_file_miss cfg dp n st h]
          exact List.mem_cons_self _ _
    · exact ih (runAct cfg st b) _ ha

/-- When every processed entry's mapped replica path already exists on the
disk, the copy loop performs no copy at all: only the source folder state
changes. -/
theorem runActs_noop (cfg : Cfg) (acts : List Act) (st : SyncSt)
    (h : ∀ a ∈ acts,
      pyReplace (actPath a) cfg.source_directory_path cfg.replica_directory_path
        ∈ st.disk) :
    runActs cfg acts st
      = { st with source_folder_state := sourceRun acts st.source_folder_state } := by
  induction acts generalizing st with
  | nil => rfl
  | cons a l ih =>
    cases a with
    | folder dp n cs =>
      have hh : pyReplace (pathJoin dp n) cfg.source_directory_path
          cfg.replica_directory_path ∈ st.disk := h _ (List.mem_cons_self _ _)
      simp only [runActs, runAct, sourceRun, make_copy_folder_hit cfg dp n cs st hh]
      rw [ih]
      intro b hb
      exact h b (List.mem_cons_of_mem _ hb)
    | file dp n =>
      have hh : pyReplace (pathJoin dp n) cfg.source_directory_path
          cfg.replica_directory_path ∈ st.disk := h _ (List.mem_cons_self _ _)
      simp only [runActs, runAct, sourceRun, make_copy_file_hit cfg dp n st hh]
      rw [ih]
      intro b hb
      exact h b (List.mem_cons_of_mem _ hb)

/-! ## Invariants of the deletion loop -/

/-- One deletion step only removes disk paths, never adds any. -/
theorem delete_files_subset (cfg : Cfg) (p : FsPath) (k : ObjKind) (st : DelSt) :
    ∀ x ∈ (delete_files cfg p k st).disk, x ∈ st.disk := by
  intro x hx
  simp only [delete_files] at hx
  by_cases h : pyReplace p cfg.source_directory_path cfg.replica_directory_path
      ∈ st.disk
  · rw [if_pos h] at hx
    cases k with
    | folders => exact (List.mem_filter.mp hx).1
    | files => exact (List.mem_filter.mp hx).1
  · rwa [if_neg h] at hx

/-- After one deletion step, the step's own replica target is gone. -/
theorem delete_files_removed (cfg : Cfg) (p : FsPath) (k : ObjKind) (st : DelSt) :
    pyReplace p cfg.source_directory_path cfg.replica_directory_path
      ∉ (delete_files cfg p k st).disk := by
  intro hx
  simp only [delete_files] at hx
  by_cases h : pyReplace p cfg.source_directory_path cfg.replica_directory_path
      ∈ st.disk
  · rw [if_pos h] at hx
    cases k with
    | folders =>
      have := (List.mem_filter.mp hx).2
      simp at this
    | files =>
      have := (List.mem_filter.mp hx).2
      simp at this
  · rw [if_neg h] at hx
    exact h hx

/-- One deletion step keeps any disk path that is neither the step's replica
target nor (for a folder deletion) inside it. -/
theorem delete_files_keep (cfg : Cfg) (p : FsPath) (k : ObjKind) (st : DelSt)
    (x : FsPath) (hx : x ∈ st.disk)
    (hne : x ≠ pyReplace p cfg.source_directory_path cfg.replica_directory_path)
    (hpre : k = ObjKind.folders →
      ¬ (pyReplace p cfg.source_directory_path cfg.replica_directory_path
          ++ ['/'] <+: x)) :
    x ∈ (delete_files cfg p k st).disk := by
  simp only [delete_files]
  by_cases h : pyReplace p cfg.source_directory_path cfg.replica_directory_path
      ∈ st.disk
  · rw [if_pos h]
    cases k with
    | folders =>
      apply List.mem_filter.mpr
      refine ⟨hx, ?_⟩
      simp only [decide_eq_true_eq]
      intro hor
      rcases hor with hor | hor
      · exact hne hor
      · exact hpre rfl hor
    | files =>
      apply List.mem_filter.mpr
      refine ⟨hx, ?_⟩
      simp only [decide_eq_true_eq]
      exact hne
  · rwa [if_neg h]

/-- The deletion loop only removes disk paths. -/
theorem runDels_subset (cfg : Cfg) (l : List (FsPath × ObjKind)) (st : DelSt) :
    ∀ x ∈ (runDels cfg l st).disk, x ∈ st.disk := by
  induction l generalizing st with
  | nil => exact fun x hx => hx
  | cons pk l ih =>
    obtain ⟨p, k⟩ := pk
    intro x hx
    exact delete_files_subset cfg p k st x (ih (delete_files cfg p k st) x hx)

/-- After the deletion loop, no processed entry's replica target remains on
the disk (it was removed if present, and nothing re-adds it). -/
theorem runDels_removed (cfg : Cfg) (l : List (FsPath × ObjKind)) (st : DelSt) :
    ∀ pk ∈ l, pyReplace pk.1 cfg.source_directory_path cfg.replica_directory_path
      ∉ (runDels cfg l st).disk := by
  induction l generalizing st with
  | nil => intro pk hpk; exact absurd hpk (List.not_mem_nil pk)
  | cons qk l ih =>
    obtain ⟨q, k⟩ := qk
    intro pk hpk
    show pyReplace pk.1 cfg.source_directory_path cfg.replica_directory_path
      ∉ (runDels cfg l (delete_files cfg q k st)).disk
    rcases List.mem_cons.mp hpk with rfl | hpk
    · intro hx
      exact delete_files_removed cfg q k st
        (runDels_subset cfg l (delete_files cfg q k st) _ hx)
    · exact ih (delete_files cfg q k st) pk hpk

/-- The deletion loop keeps any disk path that no processed entry targets. -/
theorem runDels_keep (cfg : Cfg) (l : List (FsPath × ObjKind)) (st : DelSt)
    (x : FsPath) (hx : x ∈ st.disk)
    (hcl : ∀ pk ∈ l,
      x ≠ pyReplace pk.1 cfg.source_directory_path cfg.replica_directory_path ∧
      (pk.2 = ObjKind.folders →
        ¬ (pyReplace pk.1 cfg.source_directory_path cfg.replica_directory_path
            ++ ['/'] <+: x))) :
    x ∈ (runDels cfg l st).disk := by
  induction l generalizing st with
  | nil => exact hx
  | cons qk l ih =>
    obtain ⟨q, k⟩ := qk
    show x ∈ (runDels cfg l (delete_files cfg q k st)).disk
    apply ih
    · exact delete_files_keep cfg q k st x hx
        (hcl (q, k) (List.mem_cons_self _ _)).1
        (hcl (q, k) (List.mem_cons_self _ _)).2
    · exact fun pk hpk => hcl pk (List.mem_cons_of_mem _ hpk)

/-- Folder entries of the flattened deletion list are exactly the computed
deleted folders. -/
theorem mem_delActs_folders (ps qs : List FsPath) (x : FsPath) :
    (x, ObjKind.folders) ∈ delActs ps qs ↔ x ∈ ps := by
  induction ps generalizing qs with
  | nil =>
    simp only [delActs, List.mem_map]
    constructor
    · rintro ⟨q, _, hq⟩
      cases hq
    · intro hx
      exact absurd hx (List.not_mem_nil x)
  | cons p ps ih =>
    cases qs with
    | nil =>
      simp only [delActs, List.mem_cons, ih, Prod.mk.injEq]
      constructor
      · rintro (⟨rfl, _⟩ | hx)
        · exact Or.inl rfl
        · exact Or.inr hx
      · rintro (rfl | hx)
        · exact Or.inl ⟨rfl, trivial⟩
        · exact Or.inr hx
    | cons q qs =>
      simp only [delActs, List.mem_cons, ih, Prod.mk.injEq]
      constructor
      · rintro (⟨rfl, _⟩ | ⟨_, hk⟩ | hx)
        · exact Or.inl rfl
        · cases hk
        · exact Or.inr hx
      · rintro (rfl | hx)
        · exact Or.inl ⟨rfl, trivial⟩
        · exact Or.inr (Or.inr hx)

/-- File entries of the flattened deletion list are exactly the computed
deleted files. -/
theorem mem_delActs_files (ps qs : List FsPath) (x : FsPath) :
    (x, ObjKind.files) ∈ delActs ps qs ↔ x ∈ qs := by
  induction ps generalizing qs with
  | nil =>
    simp only [delActs, List.mem_map]
    constructor
    · rintro ⟨q, hq, hqe⟩
      cases hqe
      exact hq
    · intro hx
      exact ⟨x, hx, rfl⟩
  | cons p ps ih =>
    cases qs with
    | nil =>
      simp only [delActs, List.mem_cons, ih, Prod.mk.injEq]
      constructor
      · rintro (⟨_, hk⟩ | hx)
        · cases hk
        · exact hx
      · intro hx
        exact absurd hx (List.not_mem_nil x)
    | cons q qs =>
      simp only [delActs, List.mem_cons, ih, Prod.mk.injEq]
      constructor
      · rintro (⟨_, hk⟩ | ⟨rfl, _⟩ | hx)
        · cases hk
        · exact Or.inl rfl
        · exact Or.inr hx
      · rintro (rfl | hx)
        · exact Or.inr (Or.inl ⟨rfl, trivial⟩)
        · exact Or.inr (Or.inr hx)

/-! ## Invariants of the collect loop -/

/-- Membership in the folders component of the collected state. -/
theorem collectActs_folders_mem (cfg : Cfg) (acts : List Act) (fs : FolderState)
    (x : FsPath) :
    x ∈ (collectActs cfg acts fs).folders ↔
      x ∈ fs.folders ∨ ∃ p ∈ actsFolders acts,
        x = pyReplace p cfg.replica_directory_path cfg.source_directory_path := by
  induction acts generalizing fs with
  | nil => simp [collectActs, actsFolders]
  | cons a l ih =>
    cases a with
    | folder dp n cs =>
      simp only [collectActs, collectAct, ih, actsFolders, List.mem_cons,
        List.mem_insert_iff, get_absolute_path]
      constructor
      · rintro ((rfl | hfs) | ⟨p, hp, rfl⟩)
        · exact Or.inr ⟨pathJoin dp n, Or.inl rfl, rfl⟩
        · exact Or.inl hfs
        · exact Or.inr ⟨p, Or.inr hp, rfl⟩
      · rintro (hfs | ⟨p, rfl | hp, rfl⟩)
        · exact Or.inl (Or.inr hfs)
        · exact Or.inl (Or.inl rfl)
        · exact Or.inr ⟨p, hp, rfl⟩
    | file dp n =>
      simp only [collectActs, collectAct, ih, actsFolders]

/-- Membership in the files component of the collected state. -/
theorem collectActs_files_mem (cfg : Cfg) (acts : List Act) (fs : FolderState)
    (x : FsPath) :
    x ∈ (collectActs cfg acts fs).files ↔
      x ∈ fs.files ∨ ∃ p ∈ actsFiles acts,
        x = pyReplace p cfg.replica_directory_path cfg.source_directory_path := by
  induction acts generalizing fs with
  | nil => simp [collectActs, actsFiles]
  | cons a l ih =>
    cases a with
    | folder dp n cs =>
      simp only [collectActs, collectAct, ih, actsFiles]
    | file dp n =>
      simp only [collectActs, collectAct, ih, actsFiles, List.mem_cons,
        List.mem_insert_iff, get_absolute_path]
      constructor
      · rintro ((rfl | hfs) | ⟨p, hp, rfl⟩)
        · exact Or.inr ⟨pathJoin dp n, Or.inl rfl, rfl⟩
        · exact Or.inl hfs
        · exact Or.inr ⟨p, Or.inr hp, rfl⟩
      · rintro (hfs | ⟨p, rfl | hp, rfl⟩)
        · exact Or.inl (Or.inr hfs)
        · exact Or.inl (Or.inl rfl)
        · exact Or.inr ⟨p, hp, rfl⟩

/-- Membership in a filtered difference list. -/
theorem mem_filter_not_mem (l m : List FsPath) (x : FsPath) :
    x ∈ l.filter (fun p => decide (¬ p ∈ m)) ↔ x ∈ l ∧ x ∉ m := by
  rw [List.mem_filter]
  simp

/-! ## C1 and C8: the reconciliation sets and the baseline rotation -/

/-- **C1.**  In every reconciliation cycle, the computed deletion sets
(lines 166-167) are exactly the previous replica snapshot's paths minus the
current source snapshot's paths, per kind — the paths the cycle itself adds
to the replica state while copying cancel out because each of them is also a
walked source path — and the copies performed are exactly those prescribed
by the spec-side description `specAdditions`: the source snapshot paths
whose mapped replica path does not exist on disk at the time of the check. -/
theorem c1_reconcile_sets (cfg : Cfg) (tree : List Entry)
    (replica0 : FolderState) (disk0 : List FsPath) :
    (∀ p, p ∈ (check_folder_state cfg tree replica0 disk0).deleted_folders ↔
       p ∈ replica0.folders ∧
         p ∉ triplesFolders (osWalk cfg.source_directory_path tree)) ∧
    (∀ p, p ∈ (check_folder_state cfg tree replica0 disk0).deleted_files ↔
       p ∈ replica0.files ∧
         p ∉ triplesFiles (osWalk cfg.source_directory_path tree)) ∧
    (check_folder_state cfg tree replica0 disk0).copiedFolders
      = (specAdditions cfg (tripleActs (osWalk cfg.source_directory_path tree))
          ⟨[], [], disk0⟩).copiedFolders ∧
    (check_folder_state cfg tree replica0 disk0).copiedFiles
      = (specAdditions cfg (tripleActs (osWalk cfg.source_directory_path tree))
          ⟨[], [], disk0⟩).copiedFiles := by
  have hbridge := copyWalkLoop_eq cfg (osWalk cfg.source_directory_path tree)
    { source_folder_state := emptyState, replica_folder_state := replica0,
      disk := disk0, copiedFolders := [], copiedFiles := [], replicaMutations := 0 }
  obtain ⟨df, dfi, h1, h2, h3, h4, h5, h6, h7, h8⟩ :=
    runActs_master cfg (tripleActs (osWalk cfg.source_directory_path tree))
      { source_folder_state := emptyState, replica_folder_state := replica0,
        disk := disk0, copiedFolders := [], copiedFiles := [], replicaMutations := 0 }
  have hsrc := runActs_source cfg (tripleActs (osWalk cfg.source_directory_path tree))
    { source_folder_state := emptyState, replica_folder_state := replica0,
      disk := disk0, copiedFolders := [], copiedFiles := [], replicaMutations := 0 }
  have hsf : ∀ p : FsPath,
      p ∈ (runActs cfg (tripleActs (osWalk cfg.source_directory_path tree))
        { source_folder_state := emptyState, replica_folder_state := replica0,
          disk := disk0, copiedFolders := [], copiedFiles := [],
          replicaMutations := 0 }).source_folder_state.folders ↔
      p ∈ triplesFolders (osWalk cfg.source_directory_path tree) := by
    intro p
    rw [hsrc, sourceRun_folders_mem, actsFolders_tripleActs]
    simp [emptyState]
  have hsfi : ∀ p : FsPath,
      p ∈ (runActs cfg (tripleActs (osWalk cfg.source_directory_path tree))
        { source_folder_state := emptyState, replica_folder_state := replica0,
          disk := disk0, copiedFolders := [], copiedFiles := [],
          replicaMutations := 0 }).source_folder_state.files ↔
      p ∈ triplesFiles (osWalk cfg.source_directory_path tree) := by
    intro p
    rw [hsrc, sourceRun_files_mem, actsFiles_tripleActs]
    simp [emptyState]
  simp only [check_folder_state, hbridge]
  refine ⟨?_, ?_, ?_, ?_⟩
  · intro p
    rw [mem_filter_not_mem]
    constructor
    · rintro ⟨hp, hn⟩
      have hn' : p ∉ triplesFolders (osWalk cfg.source_directory_path tree) :=
        fun hmem => hn ((hsf p).mpr hmem)
      rcases (h5 p).mp hp with hdf | hp0
      · exact absurd (actsFolders_tripleActs _ ▸ (h3 p hdf).1) hn'
      · exact ⟨hp0, hn'⟩
    · rintro ⟨hp0, hn⟩
      exact ⟨(h5 p).mpr (Or.inr hp0), fun hmem => hn ((hsf p).mp hmem)⟩
  · intro p
    rw [mem_filter_not_mem]
    constructor
    · rintro ⟨hp, hn⟩
      have hn' : p ∉ triplesFiles (osWalk cfg.source_directory_path tree) :=
        fun hmem => hn ((hsfi p).mpr hmem)
      rcases (h6 p).mp hp with hdfi | hp0
      · exact absurd (actsFiles_tripleActs _ ▸ (h4 p hdfi).1) hn'
      · exact ⟨hp0, hn'⟩
    · rintro ⟨hp0, hn⟩
      exact ⟨(h6 p).mpr (Or.inr hp0), fun hmem => hn ((hsfi p).mp hmem)⟩
  · exact (runActs_specAdditions cfg (tripleActs (osWalk cfg.source_directory_path tree))
      { source_folder_state := emptyState, replica_folder_state := replica0,
        disk := disk0, copiedFolders := [], copiedFiles := [],
        replicaMutations := 0 }).1
  · exact (runActs_specAdditions cfg (tripleActs (osWalk cfg.source_directory_path tree))
      { source_folder_state := emptyState, replica_folder_state := replica0,
        disk := disk0, copiedFolders := [], copiedFiles := [],
        replicaMutations := 0 }).2.1

/-- **C8, counterexample.**  The claim states the stored last-replica
snapshot is mutated only once per cycle.  A cycle that copies one file to
the replica mutates it twice: the `add` at line 96 when the file is copied,
and the wholesale replacement at line 175.  Here: source root `"/s"` holds
one file `a`, the replica disk is empty, so one copy is performed and the
cycle's mutation count is 2, not 1. -/
theorem c8_counterexample :
    (check_folder_state ⟨"/s".toList, "/r".toList⟩ [Entry.file "a".toList]
        emptyState []).replicaMutations ≠ 1 := by decide

/-- **C8 (amended).**  At the end of every reconciliation cycle the stored
last-replica snapshot is exactly the source snapshot computed during that
cycle (its membership does not depend on the previous replica state at all:
it is replaced wholesale, never merged).  But the snapshot binding is not
mutated only once per cycle: it is mutated once per copy performed
(line 96) plus once for the final replacement (line 175), so exactly
`copies + 1` times. -/
theorem c8_baseline_rotation (cfg : Cfg) (tree : List Entry)
    (replica0 : FolderState) (disk0 : List FsPath) :
    (∀ p, p ∈ (check_folder_state cfg tree replica0 disk0).replica_folder_state.folders
        ↔ p ∈ triplesFolders (osWalk cfg.source_directory_path tree)) ∧
    (∀ p, p ∈ (check_folder_state cfg tree replica0 disk0).replica_folder_state.files
        ↔ p ∈ triplesFiles (osWalk cfg.source_directory_path tree)) ∧
    (check_folder_state cfg tree replica0 disk0).replicaMutations
      = (check_folder_state cfg tree replica0 disk0).copiedFolders.length
        + (check_folder_state cfg tree replica0 disk0).copiedFiles.length + 1 := by
  have hbridge := copyWalkLoop_eq cfg (osWalk cfg.source_directory_path tree)
    { source_folder_state := emptyState, replica_folder_state := replica0,
      disk := disk0, copiedFolders := [], copiedFiles := [], replicaMutations := 0 }
  obtain ⟨df, dfi, h1, h2, h3, h4, h5, h6, h7, h8⟩ :=
    runActs_master cfg (tripleActs (osWalk cfg.source_directory_path tree))
      { source_folder_state := emptyState, replica_folder_state := replica0,
        disk := disk0, copiedFolders := [], copiedFiles := [], replicaMutations := 0 }
  have hsrc := runActs_source cfg (tripleActs (osWalk cfg.source_directory_path tree))
    { source_folder_state := emptyState, replica_folder_state := replica0,
      disk := disk0, copiedFolders := [], copiedFiles := [], replicaMutations := 0 }
  simp only [check_folder_state, hbridge]
  refine ⟨?_, ?_, ?_⟩
  · intro p
    rw [hsrc, sourceRun_folders_mem, actsFolders_tripleActs]
    simp [emptyState]
  · intro p
    rw [hsrc, sourceRun_files_mem, actsFiles_tripleActs]
    simp [emptyState]
  · rw [h8, h1, h2]
    simp

/-! ## A structured view of one cycle -/

/-- The copy-phase end state of one `check_folder_state` call. -/
def cycleSt (cfg : Cfg) (tree : List Entry) (replica0 : FolderState)
    (disk0 : List FsPath) : SyncSt :=
  runActs cfg (tripleActs (osWalk cfg.source_directory_path tree))
    { source_folder_state := emptyState, replica_folder_state := replica0,
      disk := disk0, copiedFolders := [], copiedFiles := [], replicaMutations := 0 }

theorem cfs_copiedFolders (cfg : Cfg) (tree : List Entry) (replica0 : FolderState)
    (disk0 : List FsPath) :
    (check_folder_state cfg tree replica0 disk0).copiedFolders
      = (cycleSt cfg tree replica0 disk0).copiedFolders := by
  simp only [check_folder_state, copyWalkLoop_eq, cycleSt]

theorem cfs_copiedFiles (cfg : Cfg) (tree : List Entry) (replica0 : FolderState)
    (disk0 : List FsPath) :
    (check_folder_state cfg tree replica0 disk0).copiedFiles
      = (cycleSt cfg tree replica0 disk0).copiedFiles := by
  simp only [check_folder_state, copyWalkLoop_eq, cycleSt]

theorem cfs_deleted_folders (cfg : Cfg) (tree : List Entry) (replica0 : FolderState)
    (disk0 : List FsPath) :
    (check_folder_state cfg tree replica0 disk0).deleted_folders
      = (cycleSt cfg tree replica0 disk0).replica_folder_state.folders.filter
          (fun p => decide
            (¬ p ∈ (cycleSt cfg tree replica0 disk0).source_folder_state.folders)) := by
  simp only [check_folder_state, copyWalkLoop_eq, cycleSt]

theorem cfs_deleted_files (cfg : Cfg) (tree : List Entry) (replica0 : FolderState)
    (disk0 : List FsPath) :
    (check_folder_state cfg tree replica0 disk0).deleted_files
      = (cycleSt cfg tree replica0 disk0).replica_folder_state.files.filter
          (fun p => decide
            (¬ p ∈ (cycleSt cfg tree replica0 disk0).source_folder_state.files)) := by
  simp only [check_folder_state, copyWalkLoop_eq, cycleSt]

theorem cfs_disk (cfg : Cfg) (tree : List Entry) (replica0 : FolderState)
    (disk0 : List FsPath) :
    (check_folder_state cfg tree replica0 disk0).disk
      = (runDels cfg
          (delActs (check_folder_state cfg tree replica0 disk0).deleted_folders
            (check_folder_state cfg tree replica0 disk0).deleted_files)
          ⟨(cycleSt cfg tree replica0 disk0).disk, [], []⟩).disk := by
  simp only [check_folder_state, copyWalkLoop_eq, deletePairsLoop_eq, cycleSt]

theorem cfs_replica_state (cfg : Cfg) (tree : List Entry) (replica0 : FolderState)
    (disk0 : List FsPath) :
    (check_folder_state cfg tree replica0 disk0).replica_folder_state
      = (cycleSt cfg tree replica0 disk0).source_folder_state := by
  simp only [check_folder_state, copyWalkLoop_eq, cycleSt]

/-- The source state of the cycle holds exactly the walked folder paths. -/
theorem cycleSt_source_folders (cfg : Cfg) (tree : List Entry)
    (replica0 : FolderState) (disk0 : List FsPath) (x : FsPath) :
    x ∈ (cycleSt cfg tree replica0 disk0).source_folder_state.folders ↔
      x ∈ triplesFolders (osWalk cfg.source_directory_path tree) := by
  rw [cycleSt, runActs_source, sourceRun_folders_mem, actsFolders_tripleActs]
  simp [emptyState]

/-- The source state of the cycle holds exactly the walked file paths. -/
theorem cycleSt_source_files (cfg : Cfg) (tree : List Entry)
    (replica0 : FolderState) (disk0 : List FsPath) (x : FsPath) :
    x ∈ (cycleSt cfg tree replica0 disk0).source_folder_state.files ↔
      x ∈ triplesFiles (osWalk cfg.source_directory_path tree) := by
  rw [cycleSt, runActs_source, sourceRun_files_mem, actsFiles_tripleActs]
  simp [emptyState]

/-- The previous baseline's folders stay in the replica state of the cycle. -/
theorem cycleSt_replica_folders_of_mem (cfg : Cfg) (tree : List Entry)
    (replica0 : FolderState) (disk0 : List FsPath) (x : FsPath)
    (hx : x ∈ replica0.folders) :
    x ∈ (cycleSt cfg tree replica0 disk0).replica_folder_state.folders := by
  obtain ⟨df, dfi, _, _, _, _, h5, _, _, _⟩ :=
    runActs_master cfg (tripleActs (osWalk cfg.source_directory_path tree))
      { source_folder_state := emptyState, replica_folder_state := replica0,
        disk := disk0, copiedFolders := [], copiedFiles := [], replicaMutations := 0 }
  exact (h5 x).mpr (Or.inr hx)

/-- The previous baseline's files stay in the replica state of the cycle. -/
theorem cycleSt_replica_files_of_mem (cfg : Cfg) (tree : List Entry)
    (replica0 : FolderState) (disk0 : List FsPath) (x : FsPath)
    (hx : x ∈ replica0.files) :
    x ∈ (cycleSt cfg tree replica0 disk0).replica_folder_state.files := by
  obtain ⟨df, dfi, _, _, _, _, _, h6, _, _⟩ :=
    runActs_master cfg (tripleActs (osWalk cfg.source_directory_path tree))
      { source_folder_state := emptyState, replica_folder_state := replica0,
        disk := disk0, copiedFolders := [], copiedFiles := [], replicaMutations := 0 }
  exact (h6 x).mpr (Or.inr hx)

/-- Every folder in the cycle's replica state is either from the previous
baseline or a walked source folder. -/
theorem cycleSt_replica_folders_cases (cfg : Cfg) (tree : List Entry)
    (replica0 : FolderState) (disk0 : List FsPath) (x : FsPath)
    (hx : x ∈ (cycleSt cfg tree replica0 disk0).replica_folder_state.folders) :
    x ∈ replica0.folders ∨ x ∈ triplesFolders (osWalk cfg.source_directory_path tree) := by
  obtain ⟨df, dfi, _, _, h3, _, h5, _, _, _⟩ :=
    runActs_master cfg (tripleActs (osWalk cfg.source_directory_path tree))
      { source_folder_state := emptyState, replica_folder_state := replica0,
        disk := disk0, copiedFolders := [], copiedFiles := [], replicaMutations := 0 }
  rcases (h5 x).mp hx with hdf | h0
  · exact Or.inr (actsFolders_tripleActs _ ▸ (h3 x hdf).1)
  · exact Or.inl h0

/-- Every file in the cycle's replica state is either from the previous
baseline or a walked source file. -/
theorem cycleSt_replica_files_cases (cfg : Cfg) (tree : List Entry)
    (replica0 : FolderState) (disk0 : List FsPath) (x : FsPath)
    (hx : x ∈ (cycleSt cfg tree replica0 disk0).replica_folder_state.files) :
    x ∈ replica0.files ∨ x ∈ triplesFiles (osWalk cfg.source_directory_path tree) := by
  obtain ⟨df, dfi, _, _, _, h4, _, h6, _, _⟩ :=
    runActs_master cfg (tripleActs (osWalk cfg.source_directory_path tree))
      { source_folder_state := emptyState, replica_folder_state := replica0,
        disk := disk0, copiedFolders := [], copiedFiles := [], replicaMutations := 0 }
  rcases (h6 x).mp hx with hdfi | h0
  · exact Or.inr (actsFiles_tripleActs _ ▸ (h4 x hdfi).1)
  · exact Or.inl h0

/-- Every copied folder is a walked source folder whose mapped replica path
was absent from the initial replica disk. -/
theorem cycleSt_copiedFolders_spec (cfg : Cfg) (tree : List Entry)
    (replica0 : FolderState) (disk0 : List FsPath) (x : FsPath)
    (hx : x ∈ (cycleSt cfg tree replica0 disk0).copiedFolders) :
    x ∈ triplesFolders (osWalk cfg.source_directory_path tree) ∧
      pyReplace x cfg.source_directory_path cfg.replica_directory_path ∉ disk0 := by
  obtain ⟨df, dfi, h1, _, h3, _, _, _, _, _⟩ :=
    runActs_master cfg (tripleActs (osWalk cfg.source_directory_path tree))
      { source_folder_state := emptyState, replica_folder_state := replica0,
        disk := disk0, copiedFolders := [], copiedFiles := [], replicaMutations := 0 }
  rw [cycleSt] at hx
  rw [h1, List.append_nil] at hx
  exact ⟨actsFolders_tripleActs _ ▸ (h3 x hx).1, (h3 x hx).2⟩

/-- Every copied file is a walked source file whose mapped replica path was
absent from the initial replica disk. -/
theorem cycleSt_copiedFiles_spec (cfg : Cfg) (tree : List Entry)
    (replica0 : FolderState) (disk0 : List FsPath) (x : FsPath)
    (hx : x ∈ (cycleSt cfg tree replica0 disk0).copiedFiles) :
    x ∈ triplesFiles (osWalk cfg.source_directory_path tree) ∧
      pyReplace x cfg.source_directory_path cfg.replica_directory_path ∉ disk0 := by
  obtain ⟨df, dfi, _, h2, _, h4, _, _, _, _⟩ :=
    runActs_master cfg (tripleActs (osWalk cfg.source_directory_path tree))
      { source_folder_state := emptyState, replica_folder_state := replica0,
        disk := disk0, copiedFolders := [], copiedFiles := [], replicaMutations := 0 }
  rw [cycleSt] at hx
  rw [h2, List.append_nil] at hx
  exact ⟨actsFiles_tripleActs _ ▸ (h4 x hx).1, (h4 x hx).2⟩

/-- The initial replica disk survives the copy phase. -/
theorem cycleSt_disk_super (cfg : Cfg) (tree : List Entry)
    (replica0 : FolderState) (disk0 : List FsPath) (x : FsPath)
    (hx : x ∈ disk0) :
    x ∈ (cycleSt cfg tree replica0 disk0).disk := by
  obtain ⟨df, dfi, _, _, _, _, _, _, h7, _⟩ :=
    runActs_master cfg (tripleActs (osWalk cfg.source_directory_path tree))
      { source_folder_state := emptyState, replica_folder_state := replica0,
        disk := disk0, copiedFolders := [], copiedFiles := [], replicaMutations := 0 }
  exact h7 x hx

/-- A filter against a superset of its base list is empty. -/
theorem filter_not_mem_of_subset (l m : List FsPath)
    (h : ∀ x ∈ l, x ∈ m) :
    l.filter (fun p => decide (¬ p ∈ m)) = [] := by
  rw [List.eq_nil_iff_forall_not_mem]
  intro x hx
  rw [mem_filter_not_mem] at hx
  exact hx.2 (h x hx.1)

/-- Folder paths of the flattened action list, as folder actions. -/
theorem mem_actsFolders (l : List Act) (x : FsPath) :
    x ∈ actsFolders l ↔
      ∃ dp n cs, Act.folder dp n cs ∈ l ∧ x = pathJoin dp n := by
  induction l with
  | nil => simp [actsFolders]
  | cons a l ih =>
    cases a with
    | folder dp n cs =>
      simp only [actsFolders, List.mem_cons, ih]
      constructor
      · rintro (rfl | ⟨dp', n', cs', ha, rfl⟩)
        · exact ⟨dp, n, cs, Or.inl rfl, rfl⟩
        · exact ⟨dp', n', cs', Or.inr ha, rfl⟩
      · rintro ⟨dp', n', cs', ha | ha, rfl⟩
        · cases ha
          exact Or.inl rfl
        · exact Or.inr ⟨dp', n', cs', ha, rfl⟩
    | file dp n =>
      simp only [actsFolders, ih, List.mem_cons]
      constructor
      · rintro ⟨dp', n', cs', ha, rfl⟩
        exact ⟨dp', n', cs', Or.inr ha, rfl⟩
      · rintro ⟨dp', n', cs', ha | ha, rfl⟩
        · cases ha
        · exact ⟨dp', n', cs', ha, rfl⟩

/-- File paths of the flattened action list, as file actions. -/
theorem mem_actsFiles (l : List Act) (x : FsPath) :
    x ∈ actsFiles l ↔ ∃ dp n, Act.file dp n ∈ l ∧ x = pathJoin dp n := by
  induction l with
  | nil => simp [actsFiles]
  | cons a l ih =>
    cases a with
    | folder dp n cs =>
      simp only [actsFiles, ih, List.mem_cons]
      constructor
      · rintro ⟨dp', n', ha, rfl⟩
        exact ⟨dp', n', Or.inr ha, rfl⟩
      · rintro ⟨dp', n', ha | ha, rfl⟩
        · cases ha
        · exact ⟨dp', n', ha, rfl⟩
    | file dp n =>
      simp only [actsFiles, List.mem_cons, ih]
      constructor
      · rintro (rfl | ⟨dp', n', ha, rfl⟩)
        · exact ⟨dp, n, Or.inl rfl, rfl⟩
        · exact ⟨dp', n', Or.inr ha, rfl⟩
      · rintro ⟨dp', n', ha | ha, rfl⟩
        · cases ha
          exact Or.inl rfl
        · exact Or.inr ⟨dp', n', ha, rfl⟩

/-- After the copy phase, every walked path's mapped replica path is on the
replica disk. -/
theorem cycleSt_present (cfg : Cfg) (tree : List Entry)
    (replica0 : FolderState) (disk0 : List FsPath) (x : FsPath)
    (hx : x ∈ triplesFolders (osWalk cfg.source_directory_path tree) ∨
      x ∈ triplesFiles (osWalk cfg.source_directory_path tree)) :
    pyReplace x cfg.source_directory_path cfg.replica_directory_path
      ∈ (cycleSt cfg tree replica0 disk0).disk := by
  rcases hx with hx | hx
  · rw [← actsFolders_tripleActs, mem_actsFolders] at hx
    obtain ⟨dp, n, cs, ha, rfl⟩ := hx
    have := runActs_present cfg (tripleActs (osWalk cfg.source_directory_path tree))
      { source_folder_state := emptyState, replica_folder_state := replica0,
        disk := disk0, copiedFolders := [], copiedFiles := [], replicaMutations := 0 }
      (Act.folder dp n cs) ha
    exact this
  · rw [← actsFiles_tripleActs, mem_actsFiles] at hx
    obtain ⟨dp, n, ha, rfl⟩ := hx
    have := runActs_present cfg (tripleActs (osWalk cfg.source_directory_path tree))
      { source_folder_state := emptyState, replica_folder_state := replica0,
        disk := disk0, copiedFolders := [], copiedFiles := [], replicaMutations := 0 }
      (Act.file dp n) ha
    exact this

/-- **C5.**  With the baseline seeded at startup by walking the replica tree
(paths expressed in the source-root namespace via `get_absolute_path`), a
file present in the replica but absent from the source is removed from the
replica disk by the end of the first reconciliation cycle, and replica
contents whose replica path already exists on the replica disk are never
re-copied.  The file is the replica path `replicaRoot ++ s`; the root-text
side conditions keep the replace-all path mapping an exact prefix swap on
this path. -/
theorem c5_stale_file_removed (cfg : Cfg) (replicaTree sourceTree : List Entry)
    (s : List Char)
    (hsne : cfg.source_directory_path ≠ [])
    (hrne : cfg.replica_directory_path ≠ [])
    (hnos : ¬ cfg.source_directory_path <:+: s)
    (hnor : ¬ cfg.replica_directory_path <:+: s)
    (hfile : cfg.replica_directory_path ++ s
      ∈ triplesFiles (osWalk cfg.replica_directory_path replicaTree))
    (habsent : cfg.source_directory_path ++ s
      ∉ triplesFiles (osWalk cfg.source_directory_path sourceTree)) :
    cfg.replica_directory_path ++ s ∉ (first_cycle cfg replicaTree sourceTree).disk ∧
    (∀ p, pyReplace p cfg.source_directory_path cfg.replica_directory_path
        ∈ entriesPaths cfg.replica_directory_path replicaTree →
      p ∉ (first_cycle cfg replicaTree sourceTree).copiedFolders ∧
      p ∉ (first_cycle cfg replicaTree sourceTree).copiedFiles) := by
  have hseed : cfg.source_directory_path ++ s
      ∈ (seed_replica_state cfg replicaTree).files := by
    rw [seed_replica_state, collectWalkLoop_eq, collectActs_files_mem]
    refine Or.inr ⟨cfg.replica_directory_path ++ s, ?_, ?_⟩
    · rw [actsFiles_tripleActs]
      exact hfile
    · rw [pyReplace_swap _ _ _ hrne hnor]
  have hqdel : cfg.source_directory_path ++ s
      ∈ (check_folder_state cfg sourceTree (seed_replica_state cfg replicaTree)
          (entriesPaths cfg.replica_directory_path replicaTree)).deleted_files := by
    rw [cfs_deleted_files, mem_filter_not_mem]
    refine ⟨cycleSt_replica_files_of_mem _ _ _ _ _ hseed, ?_⟩
    intro hm
    exact habsent ((cycleSt_source_files _ _ _ _ _).mp hm)
  constructor
  · simp only [first_cycle]
    rw [cfs_disk]
    have hrm := runDels_removed cfg
      (delActs (check_folder_state cfg sourceTree (seed_replica_state cfg replicaTree)
          (entriesPaths cfg.replica_directory_path replicaTree)).deleted_folders
        (check_folder_state cfg sourceTree (seed_replica_state cfg replicaTree)
          (entriesPaths cfg.replica_directory_path replicaTree)).deleted_files)
      ⟨(cycleSt cfg sourceTree (seed_replica_state cfg replicaTree)
          (entriesPaths cfg.replica_directory_path replicaTree)).disk, [], []⟩
      (cfg.source_directory_path ++ s, ObjKind.files)
      ((mem_delActs_files _ _ _).mpr hqdel)
    rwa [pyReplace_swap _ _ _ hsne hnos] at hrm
  · intro p hp
    constructor
    · simp only [first_cycle]
      rw [cfs_copiedFolders]
      intro hcf
      exact (cycleSt_copiedFolders_spec _ _ _ _ _ hcf).2 hp
    · simp only [first_cycle]
      rw [cfs_copiedFiles]
      intro hcf
      exact (cycleSt_copiedFiles_spec _ _ _ _ _ hcf).2 hp

/-- **C5, witness.**  Concretely: the replica holds files `a` and `o`, the
source holds only `a`; after the first cycle the stale `"/r/o"` is gone from
the replica disk. -/
theorem c5_stale_file_removed_witness :
    "/r".toList ++ "/o".toList ∉ (first_cycle ⟨"/s".toList, "/r".toList⟩
      [Entry.file "a".toList, Entry.file "o".toList] [Entry.file "a".toList]).disk :=
  (c5_stale_file_removed ⟨"/s".toList, "/r".toList⟩
    [Entry.file "a".toList, Entry.file "o".toList] [Entry.file "a".toList] "/o".toList
    (by decide) (by decide) (by decide) (by decide) (by decide) (by decide)).1

/-- **C6.**  For a source tree holding one folder `d` with one file `f`
nested inside it, and an empty replica, one reconciliation cycle produces
the nested file at its mapped replica path (it lands on the disk through the
recursive `copytree` of `d`), and the file entry — whose replica path
already exists by the time the walk reaches `d`'s own triple — is not copied
a second time: the cycle's copy log holds exactly the folder `d` and no
file.  The side conditions keep the replace-all mapping a prefix swap on the
two walked paths. -/
theorem c6_nested_folder_copy (cfg : Cfg) (d f : List Char)
    (hsne : cfg.source_directory_path ≠ [])
    (h1 : ¬ cfg.source_directory_path <:+: ('/' :: d))
    (h2 : ¬ cfg.source_directory_path <:+: ('/' :: d ++ '/' :: f)) :
    cfg.replica_directory_path ++ '/' :: d ++ '/' :: f
      ∈ (check_folder_state cfg [Entry.dir d [Entry.file f]] emptyState []).disk ∧
    (check_folder_state cfg [Entry.dir d [Entry.file f]] emptyState []).copiedFiles
      = [] ∧
    (check_folder_state cfg [Entry.dir d [Entry.file f]] emptyState []).copiedFolders
      = [cfg.source_directory_path ++ '/' :: d] := by
  have e1 : pyReplace (pathJoin cfg.source_directory_path d)
      cfg.source_directory_path cfg.replica_directory_path
      = cfg.replica_directory_path ++ '/' :: d :=
    pyReplace_swap _ _ _ hsne h1
  have e2 : pyReplace (pathJoin (pathJoin cfg.source_directory_path d) f)
      cfg.source_directory_path cfg.replica_directory_path
      = cfg.replica_directory_path ++ ('/' :: d ++ '/' :: f) := by
    have hj : pathJoin (pathJoin cfg.source_directory_path d) f
        = cfg.source_directory_path ++ ('/' :: d ++ '/' :: f) := by
      simp [pathJoin]
    rw [hj]
    exact pyReplace_swap _ _ _ hsne h2
  have hacts : tripleActs (osWalk cfg.source_directory_path [Entry.dir d [Entry.file f]])
      = [Act.folder cfg.source_directory_path d [Entry.file f],
         Act.file (pathJoin cfg.source_directory_path d) f] := rfl
  have hmiss1 : pyReplace (pathJoin cfg.source_directory_path d)
      cfg.source_directory_path cfg.replica_directory_path
      ∉ (({ source_folder_state := emptyState, replica_folder_state := emptyState,
            disk := [], copiedFolders := [], copiedFiles := [],
            replicaMutations := 0 } : SyncSt)).disk := by
    simp
  have hst1 := make_copy_folder_miss cfg cfg.source_directory_path d [Entry.file f]
    { source_folder_state := emptyState, replica_folder_state := emptyState,
      disk := [], copiedFolders := [], copiedFiles := [], replicaMutations := 0 } hmiss1
  have hhit2 : pyReplace (pathJoin (pathJoin cfg.source_directory_path d) f)
      cfg.source_directory_path cfg.replica_directory_path
      ∈ (make_copy cfg cfg.source_directory_path d (.folders [Entry.file f])
          { source_folder_state := emptyState, replica_folder_state := emptyState,
            disk := [], copiedFolders := [], copiedFiles := [],
            replicaMutations := 0 }).disk := by
    rw [hst1, e2, e1]
    simp [entriesPaths, entryPaths, pathJoin, List.append_assoc]
  have hst2 := make_copy_file_hit cfg (pathJoin cfg.source_directory_path d) f
    (make_copy cfg cfg.source_directory_path d (.folders [Entry.file f])
      { source_folder_state := emptyState, replica_folder_state := emptyState,
        disk := [], copiedFolders := [], copiedFiles := [],
        replicaMutations := 0 }) hhit2
  have hcyc : cycleSt cfg [Entry.dir d [Entry.file f]] emptyState []
      = make_copy cfg (pathJoin cfg.source_directory_path d) f .files
          (make_copy cfg cfg.source_directory_path d (.folders [Entry.file f])
            { source_folder_state := emptyState, replica_folder_state := emptyState,
              disk := [], copiedFolders := [], copiedFiles := [],
              replicaMutations := 0 }) := by
    rw [cycleSt, hacts]
    rfl
  have hdelf : (check_folder_state cfg [Entry.dir d [Entry.file f]] emptyState
      []).deleted_folders = [] := by
    rw [cfs_deleted_folders]
    apply filter_not_mem_of_subset
    intro x hx
    rw [hcyc, hst2, hst1] at hx
    rw [hcyc, hst2, hst1]
    exact hx
  have hdelfi : (check_folder_state cfg [Entry.dir d [Entry.file f]] emptyState
      []).deleted_files = [] := by
    rw [cfs_deleted_files, hcyc, hst2, hst1]
    rfl
  refine ⟨?_, ?_, ?_⟩
  · rw [cfs_disk, hdelf, hdelfi]
    show cfg.replica_directory_path ++ '/' :: d ++ '/' :: f
      ∈ (cycleSt cfg [Entry.dir d [Entry.file f]] emptyState []).disk
    rw [hcyc, hst2, hst1]
    show cfg.replica_directory_path ++ '/' :: d ++ '/' :: f
      ∈ pyReplace (pathJoin cfg.source_directory_path d)
          cfg.source_directory_path cfg.replica_directory_path ::
        entriesPaths (pyReplace (pathJoin cfg.source_directory_path d)
          cfg.source_directory_path cfg.replica_directory_path) [Entry.file f] ++ []
    rw [e1]
    simp [entriesPaths, entryPaths, pathJoin]
  · rw [cfs_copiedFiles, hcyc, hst2, hst1]
  · rw [cfs_copiedFolders, hcyc, hst2, hst1]
    rfl

/-- **C6, witness.**  The scenario at concrete roots and names: replica path
`"/r/d/f"` exists after one cycle over source `{d: {f}}`. -/
theorem c6_nested_folder_copy_witness :
    "/r".toList ++ '/' :: "d".toList ++ '/' :: "f".toList
      ∈ (check_folder_state ⟨"/s".toList, "/r".toList⟩
          [Entry.dir "d".toList [Entry.file "f".toList]] emptyState []).disk :=
  (c6_nested_folder_copy ⟨"/s".toList, "/r".toList⟩ "d".toList "f".toList
    (by decide) (by decide) (by decide)).1

/-! ## Suffix structure of walked paths -/

mutual
/-- All names below one entry are nonempty and contain no `'/'`. -/
def entryNamesOk : Entry → Bool
  | .dir n cs => !n.isEmpty && !n.contains '/' && entriesNamesOk cs
  | .file n => !n.isEmpty && !n.contains '/'
/-- All names below a listing are nonempty and contain no `'/'`. -/
def entriesNamesOk : List Entry → Bool
  | [] => true
  | e :: es => entryNamesOk e && entriesNamesOk es
end

mutual
/-- The root-relative suffixes of the folder paths below one entry. -/
def entryFolderSufs : Entry → List (List Char)
  | .dir n cs => ('/' :: n) :: (entriesFolderSufs cs).map (fun s => '/' :: n ++ s)
  | .file _ => []
/-- The root-relative suffixes of the folder paths below a listing. -/
def entriesFolderSufs : List Entry → List (List Char)
  | [] => []
  | e :: es => entryFolderSufs e ++ entriesFolderSufs es
end

mutual
/-- The root-relative suffixes of the file paths below one entry. -/
def entryFileSufs : Entry → List (List Char)
  | .dir n cs => (entriesFileSufs cs).map (fun s => '/' :: n ++ s)
  | .file n => [('/' :: n)]
/-- The root-relative suffixes of the file paths below a listing. -/
def entriesFileSufs : List Entry → List (List Char)
  | [] => []
  | e :: es => entryFileSufs e ++ entriesFileSufs es
end

/-- The folder suffixes reached below an entry, excluding the entry's own
name (which the walk reports in the parent's triple). -/
def entryTailFolderSufs : Entry → List (List Char)
  | .dir n cs => (entriesFolderSufs cs).map (fun s => '/' :: n ++ s)
  | .file _ => []

/-- The file suffixes reached below an entry, excluding the entry's own name. -/
def entryTailFileSufs : Entry → List (List Char)
  | .dir n cs => (entriesFileSufs cs).map (fun s => '/' :: n ++ s)
  | .file _ => []

theorem triplesFolders_append (t1 t2 : List Triple) :
    triplesFolders (t1 ++ t2) = triplesFolders t1 ++ triplesFolders t2 := by
  induction t1 with
  | nil => rfl
  | cons t ts ih =>
    obtain ⟨dp, ds, fs⟩ := t
    simp only [List.cons_append, triplesFolders, List.append_eq, ih, List.append_assoc]

theorem triplesFiles_append (t1 t2 : List Triple) :
    triplesFiles (t1 ++ t2) = triplesFiles t1 ++ triplesFiles t2 := by
  induction t1 with
  | nil => rfl
  | cons t ts ih =>
    obtain ⟨dp, ds, fs⟩ := t
    simp only [List.cons_append, triplesFiles, List.append_eq, ih, List.append_assoc]

/-- Cancelling a common prefix of two prefix-related lists. -/
theorem pref_cancel_left (n x y : List Char) (h : n ++ x <+: n ++ y) : x <+: y := by
  obtain ⟨t, ht⟩ := h
  rw [List.append_assoc] at ht
  exact ⟨t, List.append_cancel_left ht⟩

/-- A list containing no `'/'` has no extension of the shape `t ++ "/"` as a
prefix. -/
theorem no_slash_pref {t n : List Char} (hslash : ¬ '/' ∈ n)
    (h : t ++ ['/'] <+: n) : False :=
  hslash (h.subset (List.mem_append_right t (List.mem_singleton.mpr rfl)))

/-- A nonempty `t` with `t ++ "/"` a prefix of a list starting with `'/'`
itself starts with `'/'`. -/
theorem head_slash {t rest : List Char} (h : t ++ ['/'] <+: '/' :: rest)
    (hne : t ≠ []) : ∃ t₁, t = '/' :: t₁ := by
  cases t with
  | nil => exact absurd rfl hne
  | cons c t₁ =>
    have hc : c = '/' ∧ t₁ ++ ['/'] <+: rest := List.cons_prefix_cons.mp h
    exact ⟨t₁, by rw [hc.1]⟩

/-- Splitting `t ++ "/" <+: n ++ s` at the `'/'`-free chunk `n`: the prefix
must absorb the whole of `n` and continue inside `s`. -/
theorem split_chunk {t₁ n s₀ : List Char} (hslash : ¬ '/' ∈ n)
    (h : t₁ ++ ['/'] <+: n ++ s₀) :
    ∃ t₂, t₁ = n ++ t₂ ∧ t₂ ++ ['/'] <+: s₀ := by
  rcases List.prefix_or_prefix_of_prefix h (List.prefix_append n s₀) with h1 | h1
  · exact absurd h1 (fun hh => no_slash_pref hslash hh)
  · have hlen : n.length ≤ t₁.length := by
      by_contra hlt
      push_neg at hlt
      have hle : n.length ≤ t₁.length + 1 := by
        have := h1.length_le
        simpa using this
      have heq : n.length = t₁.length + 1 := by omega
      have hne : n = t₁ ++ ['/'] := h1.eq_of_length (by simp [heq])
      exact hslash (hne ▸ List.mem_append_right t₁ (List.mem_singleton.mpr rfl))
    have hn : n <+: t₁ := (List.isPrefix_append_of_length hlen).mp h1
    obtain ⟨t₂, rfl⟩ := hn
    refine ⟨t₂, rfl, ?_⟩
    have hh : n ++ (t₂ ++ ['/']) <+: n ++ s₀ := by
      rwa [← List.append_assoc]
    exact pref_cancel_left n _ _ hh

/-- A list whose `contains '/'` check fails has no `'/'`. -/
theorem not_mem_of_contains_false {n : List Char} (h : n.contains '/' = false) :
    ¬ '/' ∈ n := by
  intro hm
  rw [← List.elem_iff (α := Char)] at hm
  rw [List.contains] at h
  rw [hm] at h
  cases h

mutual
/-- Folder paths reached below one entry, characterized by suffixes. -/
theorem walkEntry_folder_sufs : ∀ (base : FsPath) (e : Entry) (p : FsPath),
    (p ∈ triplesFolders (walkEntry base e) ↔
      ∃ s ∈ entryTailFolderSufs e, p = base ++ s)
  | base, .dir n cs, p => by
    have ih := walkEntries_folder_sufs (pathJoin base n) cs p
    rw [show triplesFolders (walkEntry base (Entry.dir n cs))
        = (dirsOf cs).map (fun d => pathJoin (pathJoin base n) d.1)
          ++ triplesFolders (walkEntries (pathJoin base n) cs) from rfl]
    constructor
    · intro hp
      rcases List.mem_append.mp hp with hp | hp
      · obtain ⟨d, hd, rfl⟩ := List.mem_map.mp hp
        obtain ⟨s, hs, hps⟩ := ih.mp (Or.inr ⟨d, hd, rfl⟩)
        exact ⟨'/' :: n ++ s, List.mem_map.mpr ⟨s, hs, rfl⟩,
          by rw [hps]; simp [pathJoin]⟩
      · obtain ⟨s, hs, hps⟩ := ih.mp (Or.inl hp)
        exact ⟨'/' :: n ++ s, List.mem_map.mpr ⟨s, hs, rfl⟩,
          by rw [hps]; simp [pathJoin]⟩
    · rintro ⟨s, hs, rfl⟩
      obtain ⟨u, hu, rfl⟩ := List.mem_map.mp hs
      have hform : base ++ ('/' :: n ++ u) = pathJoin base n ++ u := by
        simp [pathJoin]
      rcases ih.mpr ⟨u, hu, hform⟩ with hp | ⟨d, hd, hpd⟩
      · exact List.mem_append_right _ hp
      · exact List.mem_append_left _ (List.mem_map.mpr ⟨d, hd, hpd.symm⟩)
  | base, .file n, p => by
    simp [walkEntry, triplesFolders, entryTailFolderSufs]

/-- Folder paths reached below a listing together with the listing's own
directory names, characterized by suffixes. -/
theorem walkEntries_folder_sufs : ∀ (base : FsPath) (es : List Entry) (p : FsPath),
    ((p ∈ triplesFolders (walkEntries base es) ∨
        ∃ d ∈ dirsOf es, p = pathJoin base d.1) ↔
      ∃ s ∈ entriesFolderSufs es, p = base ++ s)
  | base, [], p => by
    simp [walkEntries, triplesFolders, dirsOf, entriesFolderSufs]
  | base, e :: es, p => by
    have ihe := walkEntry_folder_sufs base e p
    have ihl := walkEntries_folder_sufs base es p
    rw [show walkEntries base (e :: es)
        = walkEntry base e ++ walkEntries base es from rfl, triplesFolders_append]
    cases e with
    | dir n cs =>
      constructor
      · intro hp
        rcases hp with hp | ⟨d, hd, rfl⟩
        · rcases List.mem_append.mp hp with hp | hp
          · obtain ⟨s, hs, hps⟩ := ihe.mp hp
            exact ⟨s, List.mem_append_left _ (List.mem_cons_of_mem _ hs), hps⟩
          · obtain ⟨s, hs, hps⟩ := ihl.mp (Or.inl hp)
            exact ⟨s, List.mem_append_right _ hs, hps⟩
        · rcases List.mem_cons.mp hd with rfl | hd
          · exact ⟨'/' :: n, List.mem_append_left _ (List.mem_cons_self _ _), rfl⟩
          · obtain ⟨s, hs, hps⟩ := ihl.mp (Or.inr ⟨d, hd, rfl⟩)
            exact ⟨s, List.mem_append_right _ hs, hps⟩
      · rintro ⟨s, hs, rfl⟩
        rcases List.mem_append.mp hs with hs | hs
        · rcases List.mem_cons.mp hs with rfl | hs
          · exact Or.inr ⟨(n, cs), List.mem_cons_self _ _, rfl⟩
          · exact Or.inl (List.mem_append_left _ (ihe.mpr ⟨s, hs, rfl⟩))
        · rcases ihl.mpr ⟨s, hs, rfl⟩ with hp | ⟨d, hd, hpd⟩
          · exact Or.inl (List.mem_append_right _ hp)
          · exact Or.inr ⟨d, List.mem_cons_of_mem _ hd, hpd⟩
    | file n =>
      constructor
      · intro hp
        rcases hp with hp | ⟨d, hd, rfl⟩
        · rcases List.mem_append.mp hp with hp | hp
          · exact absurd hp (by simp [walkEntry, triplesFolders])
          · obtain ⟨s, hs, hps⟩ := ihl.mp (Or.inl hp)
            exact ⟨s, hs, hps⟩
        · obtain ⟨s, hs, hps⟩ := ihl.mp (Or.inr ⟨d, hd, rfl⟩)
          exact ⟨s, hs, hps⟩
      · rintro ⟨s, hs, rfl⟩
        rcases ihl.mpr ⟨s, hs, rfl⟩ with hp | ⟨d, hd, hpd⟩
        · exact Or.inl (List.mem_append_right _ hp)
        · exact Or.inr ⟨d, hd, hpd⟩
end

/-- The walked folder paths are exactly `root ++ s` for the folder suffixes. -/
theorem osWalk_folder_sufs (root : FsPath) (es : List Entry) (p : FsPath) :
    p ∈ triplesFolders (osWalk root es) ↔
      ∃ s ∈ entriesFolderSufs es, p = root ++ s := by
  have ihl := walkEntries_folder_sufs root es p
  rw [show triplesFolders (osWalk root es)
      = (dirsOf es).map (fun d => pathJoin root d.1)
        ++ triplesFolders (walkEntries root es) from rfl]
  constructor
  · intro hp
    rcases List.mem_append.mp hp with hp | hp
    · obtain ⟨d, hd, rfl⟩ := List.mem_map.mp hp
      exact ihl.mp (Or.inr ⟨d, hd, rfl⟩)
    · exact ihl.mp (Or.inl hp)
  · intro hs
    rcases ihl.mpr hs with hp | ⟨d, hd, hpd⟩
    · exact List.mem_append_right _ hp
    · exact List.mem_append_left _ (List.mem_map.mpr ⟨d, hd, hpd.symm⟩)

mutual
/-- File paths reached below one entry, characterized by suffixes. -/
theorem walkEntry_file_sufs : ∀ (base : FsPath) (e : Entry) (p : FsPath),
    (p ∈ triplesFiles (walkEntry base e) ↔
      ∃ s ∈ entryTailFileSufs e, p = base ++ s)
  | base, .dir n cs, p => by
    have ih := walkEntries_file_sufs (pathJoin base n) cs p
    rw [show triplesFiles (walkEntry base (Entry.dir n cs))
        = (filesOf cs).map (pathJoin (pathJoin base n))
          ++ triplesFiles (walkEntries (pathJoin base n) cs) from rfl]
    constructor
    · intro hp
      rcases List.mem_append.mp hp with hp | hp
      · obtain ⟨f, hf, rfl⟩ := List.mem_map.mp hp
        obtain ⟨s, hs, hps⟩ := ih.mp (Or.inr ⟨f, hf, rfl⟩)
        exact ⟨'/' :: n ++ s, List.mem_map.mpr ⟨s, hs, rfl⟩,
          by rw [hps]; simp [pathJoin]⟩
      · obtain ⟨s, hs, hps⟩ := ih.mp (Or.inl hp)
        exact ⟨'/' :: n ++ s, List.mem_map.mpr ⟨s, hs, rfl⟩,
          by rw [hps]; simp [pathJoin]⟩
    · rintro ⟨s, hs, rfl⟩
      obtain ⟨u, hu, rfl⟩ := List.mem_map.mp hs
      have hform : base ++ ('/' :: n ++ u) = pathJoin base n ++ u := by
        simp [pathJoin]
      rcases ih.mpr ⟨u, hu, hform⟩ with hp | ⟨f, hf, hpf⟩
      · exact List.mem_append_right _ hp
      · exact List.mem_append_left _ (List.mem_map.mpr ⟨f, hf, hpf.symm⟩)
  | base, .file n, p => by
    simp [walkEntry, triplesFiles, entryTailFileSufs]

/-- File paths reached below a listing together with the listing's own file
names, characterized by suffixes. -/
theorem walkEntries_file_sufs : ∀ (base : FsPath) (es : List Entry) (p : FsPath),
    ((p ∈ triplesFiles (walkEntries base es) ∨
        ∃ f ∈ filesOf es, p = pathJoin base f) ↔
      ∃ s ∈ entriesFileSufs es, p = base ++ s)
  | base, [], p => by
    simp [walkEntries, triplesFiles, filesOf, entriesFileSufs]
  | base, e :: es, p => by
    have ihe := walkEntry_file_sufs base e p
    have ihl := walkEntries_file_sufs base es p
    rw [show walkEntries base (e :: es)
        = walkEntry base e ++ walkEntries base es from rfl, triplesFiles_append]
    cases e with
    | dir n cs =>
      constructor
      · intro hp
        rcases hp with hp | ⟨f, hf, rfl⟩
        · rcases List.mem_append.mp hp with hp | hp
          · obtain ⟨s, hs, hps⟩ := ihe.mp hp
            exact ⟨s, List.mem_append_left _ hs, hps⟩
          · obtain ⟨s, hs, hps⟩ := ihl.mp (Or.inl hp)
            exact ⟨s, List.mem_append_right _ hs, hps⟩
        · obtain ⟨s, hs, hps⟩ := ihl.mp (Or.inr ⟨f, hf, rfl⟩)
          exact ⟨s, List.mem_append_right _ hs, hps⟩
      · rintro ⟨s, hs, rfl⟩
        rcases List.mem_append.mp hs with hs | hs
        · exact Or.inl (List.mem_append_left _ (ihe.mpr ⟨s, hs, rfl⟩))
        · rcases ihl.mpr ⟨s, hs, rfl⟩ with hp | ⟨f, hf, hpf⟩
          · exact Or.inl (List.mem_append_right _ hp)
          · exact Or.inr ⟨f, hf, hpf⟩
    | file n =>
      constructor
      · intro hp
        rcases hp with hp | ⟨f, hf, rfl⟩
        · rcases List.mem_append.mp hp with hp | hp
          · exact absurd hp (by simp [walkEntry, triplesFiles])
          · obtain ⟨s, hs, hps⟩ := ihl.mp (Or.inl hp)
            exact ⟨s, List.mem_cons_of_mem _ hs, hps⟩
        · rcases List.mem_cons.mp hf with rfl | hf
          · exact ⟨'/' :: f, List.mem_cons_self _ _, rfl⟩
          · obtain ⟨s, hs, hps⟩ := ihl.mp (Or.inr ⟨f, hf, rfl⟩)
            exact ⟨s, List.mem_cons_of_mem _ hs, hps⟩
      · rintro ⟨s, hs, rfl⟩
        rcases List.mem_cons.mp hs with rfl | hs
        · exact Or.inr ⟨n, List.mem_cons_self _ _, rfl⟩
        · rcases ihl.mpr ⟨s, hs, rfl⟩ with hp | ⟨f, hf, hpf⟩
          · exact Or.inl (List.mem_append_right _ hp)
          · exact Or.inr ⟨f, List.mem_cons_of_mem _ hf, hpf⟩
end

/-- The walked file paths are exactly `root ++ s` for the file suffixes. -/
theorem osWalk_file_sufs (root : FsPath) (es : List Entry) (p : FsPath) :
    p ∈ triplesFiles (osWalk root es) ↔
      ∃ s ∈ entriesFileSufs es, p = root ++ s := by
  have ihl := walkEntries_file_sufs root es p
  rw [show triplesFiles (osWalk root es)
      = (filesOf es).map (pathJoin root) ++ triplesFiles (walkEntries root es) from rfl]
  constructor
  · intro hp
    rcases List.mem_append.mp hp with hp | hp
    · obtain ⟨f, hf, rfl⟩ := List.mem_map.mp hp
      exact ihl.mp (Or.inr ⟨f, hf, rfl⟩)
    · exact ihl.mp (Or.inl hp)
  · intro hs
    rcases ihl.mpr hs with hp | ⟨f, hf, hpf⟩
    · exact List.mem_append_right _ hp
    · exact List.mem_append_left _ (List.mem_map.mpr ⟨f, hf, hpf.symm⟩)

/-- Ancestor closure of walked suffixes: in a tree with well-formed names
(nonempty, `'/'`-free), whenever `t ++ "/"` is a prefix of a walked folder
or file suffix, `t` is empty or is itself a walked folder suffix — every
directory level along a walked path is walked as a folder. -/
theorem suf_ancestor : ∀ (es : List Entry), entriesNamesOk es = true →
    ∀ s, (s ∈ entriesFolderSufs es ∨ s ∈ entriesFileSufs es) →
    ∀ t, t ++ ['/'] <+: s → t = [] ∨ t ∈ entriesFolderSufs es
  | [], _, s, hs, t, _ => by
    simp [entriesFolderSufs, entriesFileSufs] at hs
  | e :: es, hok, s, hs, t, ht => by
    have hok' : entryNamesOk e = true ∧ entriesNamesOk es = true := by
      simpa only [entriesNamesOk, Bool.and_eq_true] using hok
    have htail : s ∈ entriesFolderSufs es ∨ s ∈ entriesFileSufs es →
        t = [] ∨ t ∈ entriesFolderSufs (e :: es) := by
      intro hmem
      rcases suf_ancestor es hok'.2 s hmem t ht with h | h
      · exact Or.inl h
      · exact Or.inr (List.mem_append_right _ h)
    cases e with
    | file n =>
      have hslash : ¬ '/' ∈ n := by
        have h1 := hok'.1
        simp only [entryNamesOk, Bool.and_eq_true] at h1
        exact not_mem_of_contains_false (by simpa using h1.2)
      rcases hs with hs | hs
      · exact htail (Or.inl hs)
      · rcases List.mem_cons.mp hs with rfl | hs
        · by_cases hte : t = []
          · exact Or.inl hte
          · obtain ⟨t₁, rfl⟩ := head_slash ht hte
            have h2 : t₁ ++ ['/'] <+: n := (List.cons_prefix_cons.mp ht).2
            exact absurd h2 (fun hh => no_slash_pref hslash hh)
        · exact htail (Or.inr hs)
    | dir n cs =>
      have h1 := hok'.1
      simp only [entryNamesOk, Bool.and_eq_true] at h1
      have hslash : ¬ '/' ∈ n := not_mem_of_contains_false (by simpa using h1.1.2)
      have hokcs : entriesNamesOk cs = true := h1.2
      rcases hs with hs | hs
      · rcases List.mem_append.mp hs with hs | hs
        · rcases List.mem_cons.mp hs with rfl | hs
          · by_cases hte : t = []
            · exact Or.inl hte
            · obtain ⟨t₁, rfl⟩ := head_slash ht hte
              have h2 : t₁ ++ ['/'] <+: n := (List.cons_prefix_cons.mp ht).2
              exact absurd h2 (fun hh => no_slash_pref hslash hh)
          · obtain ⟨u, hu, rfl⟩ := List.mem_map.mp hs
            by_cases hte : t = []
            · exact Or.inl hte
            · obtain ⟨t₁, rfl⟩ := head_slash ht hte
              have h2 : t₁ ++ ['/'] <+: n ++ u := (List.cons_prefix_cons.mp ht).2
              obtain ⟨t₂, rfl, h3⟩ := split_chunk hslash h2
              rcases suf_ancestor cs hokcs u (Or.inl hu) t₂ h3 with rfl | hmem
              · right
                apply List.mem_append_left
                rw [List.append_nil]
                exact List.mem_cons_self _ _
              · right
                apply List.mem_append_left
                exact List.mem_cons_of_mem _ (List.mem_map.mpr ⟨t₂, hmem, rfl⟩)
        · exact htail (Or.inl hs)
      · rcases List.mem_append.mp hs with hs | hs
        · obtain ⟨u, hu, rfl⟩ := List.mem_map.mp hs
          by_cases hte : t = []
          · exact Or.inl hte
          · obtain ⟨t₁, rfl⟩ := head_slash ht hte
            have h2 : t₁ ++ ['/'] <+: n ++ u := (List.cons_prefix_cons.mp ht).2
            obtain ⟨t₂, rfl, h3⟩ := split_chunk hslash h2
            rcases suf_ancestor cs hokcs u (Or.inr hu) t₂ h3 with rfl | hmem
            · right
              apply List.mem_append_left
              rw [List.append_nil]
              exact List.mem_cons_self _ _
            · right
              apply List.mem_append_left
              exact List.mem_cons_of_mem _ (List.mem_map.mpr ⟨t₂, hmem, rfl⟩)
        · exact htail (Or.inr hs)

/-- **C4.**  If the reconciliation cycle runs twice in a row with no change
to the source tree between the two calls, the second call performs zero
filesystem mutations: it copies nothing (every copy target already exists,
so the existence check before copy skips it), its computed deletion sets are
both empty (the rotated baseline equals the fresh source snapshot), and the
replica disk is unchanged.  The hypotheses say that the tree's names are
well-formed, that no walked suffix contains a root's text (so the
replace-all mapping is an exact prefix swap), and that the previous baseline
is a well-formed snapshot: its paths sit under the source root at a proper
component boundary and its folder/file sets do not collide with walked
entries of the other kind. -/
theorem c4_second_cycle_no_mutation (cfg : Cfg) (tree : List Entry)
    (replica0 : FolderState) (disk0 : List FsPath)
    (hsne : cfg.source_directory_path ≠ [])
    (hnames : entriesNamesOk tree = true)
    (hsafeF : ∀ s ∈ entriesFolderSufs tree,
      ¬ cfg.source_directory_path <:+: s)
    (hsafeFi : ∀ s ∈ entriesFileSufs tree,
      ¬ cfg.source_directory_path <:+: s)
    (hprevF : ∀ x ∈ replica0.folders,
      ∃ t, x = cfg.source_directory_path ++ '/' :: t ∧
        ¬ cfg.source_directory_path <:+: ('/' :: t))
    (hprevFi : ∀ x ∈ replica0.files,
      ∃ t, x = cfg.source_directory_path ++ '/' :: t ∧
        ¬ cfg.source_directory_path <:+: ('/' :: t))
    (hkf : ∀ x ∈ replica0.folders,
      x ∉ triplesFiles (osWalk cfg.source_directory_path tree))
    (hkfi : ∀ x ∈ replica0.files,
      x ∉ triplesFolders (osWalk cfg.source_directory_path tree)) :
    (check_folder_state cfg tree
        (check_folder_state cfg tree replica0 disk0).replica_folder_state
        (check_folder_state cfg tree replica0 disk0).disk).copiedFolders = [] ∧
    (check_folder_state cfg tree
        (check_folder_state cfg tree replica0 disk0).replica_folder_state
        (check_folder_state cfg tree replica0 disk0).disk).copiedFiles = [] ∧
    (check_folder_state cfg tree
        (check_folder_state cfg tree replica0 disk0).replica_folder_state
        (check_folder_state cfg tree replica0 disk0).disk).deleted_folders = [] ∧
    (check_folder_state cfg tree
        (check_folder_state cfg tree replica0 disk0).replica_folder_state
        (check_folder_state cfg tree replica0 disk0).disk).deleted_files = [] ∧
    (check_folder_state cfg tree
        (check_folder_state cfg tree replica0 disk0).replica_folder_state
        (check_folder_state cfg tree replica0 disk0).disk).disk
      = (check_folder_state cfg tree replica0 disk0).disk := by
  have hkey : ∀ p, p ∈ triplesFolders (osWalk cfg.source_directory_path tree) ∨
      p ∈ triplesFiles (osWalk cfg.source_directory_path tree) →
      pyReplace p cfg.source_directory_path cfg.replica_directory_path
        ∈ (check_folder_state cfg tree replica0 disk0).disk := by
    intro p hp
    rw [cfs_disk]
    apply runDels_keep
    · exact cycleSt_present cfg tree replica0 disk0 p hp
    · intro pk hpk
      have hpdec : ∃ sp, (sp ∈ entriesFolderSufs tree ∨ sp ∈ entriesFileSufs tree) ∧
          p = cfg.source_directory_path ++ sp := by
        rcases hp with hp | hp
        · obtain ⟨sp, hs, rfl⟩ := (osWalk_folder_sufs _ _ _).mp hp
          exact ⟨sp, Or.inl hs, rfl⟩
        · obtain ⟨sp, hs, rfl⟩ := (osWalk_file_sufs _ _ _).mp hp
          exact ⟨sp, Or.inr hs, rfl⟩
      obtain ⟨sp, hsp, rfl⟩ := hpdec
      have hspsafe : ¬ cfg.source_directory_path <:+: sp := by
        rcases hsp with h | h
        · exact hsafeF sp h
        · exact hsafeFi sp h
      have hmap_p : pyReplace (cfg.source_directory_path ++ sp)
          cfg.source_directory_path cfg.replica_directory_path
          = cfg.replica_directory_path ++ sp :=
        pyReplace_swap _ _ _ hsne hspsafe
      obtain ⟨q, k⟩ := pk
      cases k with
      | folders =>
        have hq : q ∈ (check_folder_state cfg tree replica0 disk0).deleted_folders :=
          (mem_delActs_folders _ _ _).mp hpk
        rw [cfs_deleted_folders, mem_filter_not_mem] at hq
        have hq0 : q ∈ replica0.folders := by
          rcases cycleSt_replica_folders_cases cfg tree replica0 disk0 q hq.1 with h | h
          · exact h
          · exact absurd ((cycleSt_source_folders cfg tree replica0 disk0 q).mpr h) hq.2
        have hqnotF : q ∉ triplesFolders (osWalk cfg.source_directory_path tree) :=
          fun hm => hq.2 ((cycleSt_source_folders cfg tree replica0 disk0 q).mpr hm)
        have hqnotFi : q ∉ triplesFiles (osWalk cfg.source_directory_path tree) :=
          hkf q hq0
        obtain ⟨tq, hqeq, hqsafe⟩ := hprevF q hq0
        subst hqeq
        have hmap_q : pyReplace (cfg.source_directory_path ++ '/' :: tq)
            cfg.source_directory_path cfg.replica_directory_path
            = cfg.replica_directory_path ++ '/' :: tq :=
          pyReplace_swap _ _ _ hsne hqsafe
        constructor
        · show pyReplace (cfg.source_directory_path ++ sp)
              cfg.source_directory_path cfg.replica_directory_path
            ≠ pyReplace (cfg.source_directory_path ++ '/' :: tq)
              cfg.source_directory_path cfg.replica_directory_path
          rw [hmap_p, hmap_q]
          intro heq
          have hsp_eq : sp = '/' :: tq := List.append_cancel_left heq
          rcases hsp with hspf | hspfi
          · exact hqnotF ((osWalk_folder_sufs _ _ _).mpr ⟨sp, hspf, by rw [hsp_eq]⟩)
          · exact hqnotFi ((osWalk_file_sufs _ _ _).mpr ⟨sp, hspfi, by rw [hsp_eq]⟩)
        · intro _
          show ¬ (pyReplace (cfg.source_directory_path ++ '/' :: tq)
              cfg.source_directory_path cfg.replica_directory_path ++ ['/']
            <+: pyReplace (cfg.source_directory_path ++ sp)
              cfg.source_directory_path cfg.replica_directory_path)
          rw [hmap_p, hmap_q]
          intro hpre
          rw [List.append_assoc] at hpre
          have hpc : ('/' :: tq) ++ ['/'] <+: sp :=
            pref_cancel_left cfg.replica_directory_path _ _ hpre
          rcases suf_ancestor tree hnames sp hsp ('/' :: tq) hpc with h | h
          · cases h
          · exact hqnotF ((osWalk_folder_sufs _ _ _).mpr ⟨'/' :: tq, h, rfl⟩)
      | files =>
        have hq : q ∈ (check_folder_state cfg tree replica0 disk0).deleted_files :=
          (mem_delActs_files _ _ _).mp hpk
        rw [cfs_deleted_files, mem_filter_not_mem] at hq
        have hq0 : q ∈ replica0.files := by
          rcases cycleSt_replica_files_cases cfg tree replica0 disk0 q hq.1 with h | h
          · exact h
          · exact absurd ((cycleSt_source_files cfg tree replica0 disk0 q).mpr h) hq.2
        have hqnotFi : q ∉ triplesFiles (osWalk cfg.source_directory_path tree) :=
          fun hm => hq.2 ((cycleSt_source_files cfg tree replica0 disk0 q).mpr hm)
        have hqnotF : q ∉ triplesFolders (osWalk cfg.source_directory_path tree) :=
          hkfi q hq0
        obtain ⟨tq, hqeq, hqsafe⟩ := hprevFi q hq0
        subst hqeq
        have hmap_q : pyReplace (cfg.source_directory_path ++ '/' :: tq)
            cfg.source_directory_path cfg.replica_directory_path
            = cfg.replica_directory_path ++ '/' :: tq :=
          pyReplace_swap _ _ _ hsne hqsafe
        constructor
        · show pyReplace (cfg.source_directory_path ++ sp)
              cfg.source_directory_path cfg.replica_directory_path
            ≠ pyReplace (cfg.source_directory_path ++ '/' :: tq)
              cfg.source_directory_path cfg.replica_directory_path
          rw [hmap_p, hmap_q]
          intro heq
          have hsp_eq : sp = '/' :: tq := List.append_cancel_left heq
          rcases hsp with hspf | hspfi
          · exact hqnotF ((osWalk_folder_sufs _ _ _).mpr ⟨sp, hspf, by rw [hsp_eq]⟩)
          · exact hqnotFi ((osWalk_file_sufs _ _ _).mpr ⟨sp, hspfi, by rw [hsp_eq]⟩)
        · intro hk
          exact ObjKind.noConfusion hk
  have hall : ∀ a ∈ tripleActs (osWalk cfg.source_directory_path tree),
      pyReplace (actPath a) cfg.source_directory_path cfg.replica_directory_path
        ∈ (check_folder_state cfg tree replica0 disk0).disk := by
    intro a ha
    apply hkey
    cases a with
    | folder dp n cs =>
      left
      rw [← actsFolders_tripleActs]
      exact (mem_actsFolders _ _).mpr ⟨dp, n, cs, ha, rfl⟩
    | file dp n =>
      right
      rw [← actsFiles_tripleActs]
      exact (mem_actsFiles _ _).mpr ⟨dp, n, ha, rfl⟩
  have hnoop := runActs_noop cfg (tripleActs (osWalk cfg.source_directory_path tree))
    { source_folder_state := emptyState,
      replica_folder_state :=
        (check_folder_state cfg tree replica0 disk0).replica_folder_state,
      disk := (check_folder_state cfg tree replica0 disk0).disk,
      copiedFolders := [], copiedFiles := [], replicaMutations := 0 } hall
  have hcyc2 : cycleSt cfg tree
      (check_folder_state cfg tree replica0 disk0).replica_folder_state
      (check_folder_state cfg tree replica0 disk0).disk
      = { source_folder_state :=
            sourceRun (tripleActs (osWalk cfg.source_directory_path tree)) emptyState,
          replica_folder_state :=
            (check_folder_state cfg tree replica0 disk0).replica_folder_state,
          disk := (check_folder_state cfg tree replica0 disk0).disk,
          copiedFolders := [], copiedFiles := [], replicaMutations := 0 } := by
    rw [cycleSt, hnoop]
  have hdel2F : (check_folder_state cfg tree
      (check_folder_state cfg tree replica0 disk0).replica_folder_state
      (check_folder_state cfg tree replica0 disk0).disk).deleted_folders = [] := by
    rw [cfs_deleted_folders]
    apply filter_not_mem_of_subset
    intro x hx
    rcases cycleSt_replica_folders_cases cfg tree
        (check_folder_state cfg tree replica0 disk0).replica_folder_state
        (check_folder_state cfg tree replica0 disk0).disk x hx with h | h
    · rw [cfs_replica_state] at h
      exact (cycleSt_source_folders _ _ _ _ _).mpr
        ((cycleSt_source_folders cfg tree replica0 disk0 x).mp h)
    · exact (cycleSt_source_folders _ _ _ _ _).mpr h
  have hdel2Fi : (check_folder_state cfg tree
      (check_folder_state cfg tree replica0 disk0).replica_folder_state
      (check_folder_state cfg tree replica0 disk0).disk).deleted_files = [] := by
    rw [cfs_deleted_files]
    apply filter_not_mem_of_subset
    intro x hx
    rcases cycleSt_replica_files_cases cfg tree
        (check_folder_state cfg tree replica0 disk0).replica_folder_state
        (check_folder_state cfg tree replica0 disk0).disk x hx with h | h
    · rw [cfs_replica_state] at h
      exact (cycleSt_source_files _ _ _ _ _).mpr
        ((cycleSt_source_files cfg tree replica0 disk0 x).mp h)
    · exact (cycleSt_source_files _ _ _ _ _).mpr h
  refine ⟨?_, ?_, hdel2F, hdel2Fi, ?_⟩
  · rw [cfs_copiedFolders, hcyc2]
  · rw [cfs_copiedFiles, hcyc2]
  · rw [cfs_disk, hdel2F, hdel2Fi, hcyc2]
    rfl

/-- **C4, witness.**  A concrete second run over an unchanged source tree
`{d: {f}}` starting from an empty baseline and empty replica disk: the
second call performs no copy, computes empty deletion sets, and leaves the
replica disk unchanged. -/
theorem c4_second_cycle_no_mutation_witness :
    (check_folder_state ⟨"/s".toList, "/r".toList⟩
        [Entry.dir "d".toList [Entry.file "f".toList]]
        (check_folder_state ⟨"/s".toList, "/r".toList⟩
          [Entry.dir "d".toList [Entry.file "f".toList]] emptyState []).replica_folder_state
        (check_folder_state ⟨"/s".toList, "/r".toList⟩
          [Entry.dir "d".toList [Entry.file "f".toList]] emptyState []).disk).copiedFolders
      = [] :=
  (c4_second_cycle_no_mutation ⟨"/s".toList, "/r".toList⟩
    [Entry.dir "d".toList [Entry.file "f".toList]] emptyState []
    (by decide) (by decide) (by decide) (by decide)
    (fun x hx => absurd hx (List.not_mem_nil x))
    (fun x hx => absurd hx (List.not_mem_nil x))
    (fun x hx => absurd hx (List.not_mem_nil x))
    (fun x hx => absurd hx (List.not_mem_nil x))).1
